import Mathlib

/-!
Verification of the gsplat tile-based Gaussian-splat rasterization pipeline.

The repository excerpt contains only the package surface (`gsplat/__init__.py`,
re-exporting `isect_tiles`, `isect_offset_encode`, `rasterize_to_pixels`,
`accumulate`, `rasterization`, ...) and the end-to-end test
`tests/test_rasterization.py`.  The bodies of the pipeline stages live in
modules (`gsplat/rendering.py`, `gsplat/cuda/_wrapper.py`,
`gsplat/cuda/_torch_impl.py`) that are not part of the excerpt, so each stage
below is modelled from the specification's description of the data model and
of the stage's contract.  Machine reals are modelled as exact rationals (ℚ).
The projection math (camera transform, covariance projection) and the
spherical-harmonics color evaluator have no formulas in the spec, so they are
kept as parameters of the pipeline; every theorem holds for all of them.
-/

namespace GSplat

/-- A rational 3-vector, used for colors (RGB triples) and world coordinates. -/
structure Vec3 where
  x : ℚ
  y : ℚ
  z : ℚ
deriving DecidableEq, Repr

/-- Modelled from the spec: a *Projected Primitive*, the per-(primitive,
camera) result of the Camera Transform and Covariance Projection stages
(`fully_fused_projection` is re-exported by `gsplat/__init__.py` but its body
is not in the excerpt).  It carries the camera-space depth, the list of
screen-tile ids its bounding footprint overlaps, and the Gaussian falloff
weight it contributes at each pixel (evaluated from the conic; the spec gives
no closed formula, so the weight is a function of the flattened pixel
index). -/
structure Proj where
  depth : ℚ
  tiles : List Nat
  weight : Nat → ℚ

/-- A degenerate projected primitive, used as a lookup default. -/
def Proj0 : Proj :=
  ⟨0, [], fun _ => 0⟩

/-- Modelled from the spec: an *Intersection Record*, "(tile id, primitive id,
depth) triple; the fundamental sortable unit". -/
structure IsectRecord where
  tileId : Nat
  depth : ℚ
  gaussId : Nat
deriving DecidableEq, Repr

/-- The composite sort key of an intersection record: (tile id, depth)
ascending, with ties broken by primitive index (lexicographic). -/
def recKey (r : IsectRecord) : Lex (Nat × Lex (ℚ × Nat)) :=
  toLex (r.tileId, toLex (r.depth, r.gaussId))

/-- The total order on intersection records used by the binning sort:
tile-major, depth-minor, primitive index as the final tie-break. -/
def recLE (a b : IsectRecord) : Prop :=
  recKey a ≤ recKey b

instance : DecidableRel recLE := fun a b => by
  unfold recLE recKey
  exact inferInstanceAs (Decidable (_ ≤ _))

instance : IsTotal IsectRecord recLE :=
  ⟨fun a b => le_total (recKey a) (recKey b)⟩

instance : IsTrans IsectRecord recLE :=
  ⟨fun _ _ _ hab hbc => le_trans hab hbc⟩

instance : IsAntisymm IsectRecord recLE := by
  refine ⟨fun a b hab hba => ?_⟩
  have h : recKey a = recKey b := le_antisymm hab hba
  unfold recKey at h
  have h1 := congrArg (fun p => (ofLex p).1) h
  have h2 := congrArg (fun p => (ofLex (ofLex p).2).1) h
  have h3 := congrArg (fun p => (ofLex (ofLex p).2).2) h
  simp at h1 h2 h3
  cases a; cases b; simp_all

/-- The per-tile order used by the reference rasterizer: front-to-back by
depth, ties broken by primitive index. -/
def depthLE (a b : IsectRecord) : Prop :=
  toLex (a.depth, a.gaussId) ≤ toLex (b.depth, b.gaussId)

instance : DecidableRel depthLE := fun a b => by
  unfold depthLE
  exact inferInstanceAs (Decidable (_ ≤ _))

instance : IsTotal IsectRecord depthLE :=
  ⟨fun a b => le_total (toLex (a.depth, a.gaussId)) (toLex (b.depth, b.gaussId))⟩

instance : IsTrans IsectRecord depthLE :=
  ⟨fun _ _ _ hab hbc => le_trans hab hbc⟩

/-- The intersection records one projected primitive (with index `gid`)
contributes: one record per overlapped tile, the footprint intersected with
the tile grid.  A primitive marked not-visible contributes nothing. -/
def recsOf (nTiles gid : Nat) : Option Proj → List IsectRecord
  | none => []
  | some p => (p.tiles.filter fun t => decide (t < nTiles)).map
      fun t => ⟨t, p.depth, gid⟩

/-- Modelled from the spec: the unsorted intersection-record list.  "For each
visible projected primitive, enumerate every tile its bounding footprint
overlaps ... and append one intersection record per (primitive, tile) pair."
`gid` is the index assigned to the head primitive. -/
def rawRecordsFrom (nTiles gid : Nat) : List (Option Proj) → List IsectRecord
  | [] => []
  | p :: ps => recsOf nTiles gid p ++ rawRecordsFrom nTiles (gid + 1) ps

/-- The unsorted intersection records of a projected primitive list, indexed
from 0. -/
def rawRecords (nTiles : Nat) (projs : List (Option Proj)) : List IsectRecord :=
  rawRecordsFrom nTiles 0 projs

/-- Modelled from the spec: `isect_tiles` (re-exported by
`gsplat/__init__.py`; body not in the excerpt).  Produces the
intersection-record set "sorted by a composite key: (tile id, depth)
ascending", ties broken by primitive index. -/
def isect_tiles (nTiles : Nat) (projs : List (Option Proj)) : List IsectRecord :=
  List.insertionSort recLE (rawRecords nTiles projs)

/-- Modelled from the spec: `isect_offset_encode` (re-exported by
`gsplat/__init__.py`; body not in the excerpt).  "A per-tile offset table is
derived from the sorted list by recording, for each tile id, the starting
index of its first record (tiles with zero intersections get an offset equal
to the next tile's start)."  For a sorted list, the starting index of tile
`t`'s range is the number of records belonging to strictly earlier tiles. -/
def isect_offset_encode (recs : List IsectRecord) (nTiles : Nat) : List Nat :=
  (List.range nTiles).map fun t => recs.countP fun r => decide (r.tileId < t)

/-- The start boundary of tile `t`'s record range (the entry of the offset
table for `t < nTiles`, and the total record count at `t = nTiles`). -/
def tileStart (recs : List IsectRecord) (t : Nat) : Nat :=
  recs.countP fun r => decide (r.tileId < t)

/-- The record range the offset table designates for tile `t`: from its own
start to the next tile's start. -/
def tileRange (recs : List IsectRecord) (t : Nat) : List IsectRecord :=
  (recs.drop (tileStart recs t)).take (tileStart recs (t + 1) - tileStart recs t)

/-- Modelled from the spec: the *Pixel Accumulator*, the "per-pixel running
(color, transmittance) state during compositing", extended with the composited
depth and the accumulated alpha that the rasterizer also outputs. -/
structure PixState where
  color : Vec3
  depth : ℚ
  alphaAcc : ℚ
  trans : ℚ
deriving DecidableEq, Repr

/-- The initial accumulator: zero color, transmittance 1. -/
def initPix : PixState :=
  ⟨⟨0, 0, 0⟩, 0, 0, 1⟩

/-- Modelled from the spec: one compositing step of `accumulate` (re-exported
by `gsplat/__init__.py`; body not in the excerpt).  "Evaluate the Gaussian
density at that pixel using the conic and the primitive's opacity, multiply
into the running transmittance, and accumulate color * alpha * transmittance
into the pixel's output"; depth is composited alongside color.  `colors`,
`opac` and `wt` look up the per-primitive color, opacity and Gaussian density
at this pixel by primitive index. -/
def accumulate (colors : Nat → Vec3) (opac : Nat → ℚ) (wt : Nat → ℚ)
    (st : PixState) (r : IsectRecord) : PixState :=
  let a := opac r.gaussId * wt r.gaussId
  { color := ⟨st.color.x + (colors r.gaussId).x * a * st.trans,
              st.color.y + (colors r.gaussId).y * a * st.trans,
              st.color.z + (colors r.gaussId).z * a * st.trans⟩
    depth := st.depth + r.depth * a * st.trans
    alphaAcc := st.alphaAcc + a * st.trans
    trans := st.trans * (1 - a) }

/-- Composite a record list front-to-back into one pixel, starting from the
initial accumulator. -/
def renderPix (colors : Nat → Vec3) (opac : Nat → ℚ) (wt : Nat → ℚ)
    (recs : List IsectRecord) : PixState :=
  recs.foldl (accumulate colors opac wt) initPix

/-- Per-primitive color lookup (out-of-range indices give black). -/
def colorAt (cols : List Vec3) (g : Nat) : Vec3 :=
  cols.getD g ⟨0, 0, 0⟩

/-- Per-primitive opacity lookup (out-of-range indices give 0). -/
def opacAt (opac : List ℚ) (g : Nat) : ℚ :=
  opac.getD g 0

/-- The Gaussian density primitive `g` contributes at pixel `pix` (0 for
not-visible or out-of-range primitives). -/
def projWeight (projs : List (Option Proj)) (pix g : Nat) : ℚ :=
  match projs.getD g none with
  | none => 0
  | some p => p.weight pix

/-- One view of one primitive set, after projection and color evaluation:
per-primitive projection results, evaluated colors, and opacities. -/
structure View where
  projs : List (Option Proj)
  colors : List Vec3
  opacities : List ℚ

/-- The empty view, used as a lookup default. -/
def View0 : View :=
  ⟨[], [], []⟩

/-- Modelled from the spec: `rasterize_to_pixels` at one pixel (re-exported by
`gsplat/__init__.py`; body not in the excerpt).  "For each tile, process its
intersection-record range in sorted (front-to-back) order": the range is cut
out of the globally sorted list by the offset table and composited. -/
def rasterize_to_pixels (nTiles : Nat) (v : View) (tid pix : Nat) : PixState :=
  renderPix (colorAt v.colors) (opacAt v.opacities) (projWeight v.projs pix)
    (((isect_tiles nTiles v.projs).drop
        ((isect_offset_encode (isect_tiles nTiles v.projs) nTiles).getD tid 0)).take
      ((isect_offset_encode (isect_tiles nTiles v.projs) nTiles).getD (tid + 1)
          (isect_tiles nTiles v.projs).length -
        (isect_offset_encode (isect_tiles nTiles v.projs) nTiles).getD tid 0))

/-- Modelled from the spec: the compaction underlying packed mode —
"intersection-record layout indexed densely by valid (primitive, tile) pairs
only".  Keeps the visible primitives with their original (dense) indices,
starting the dense numbering at `gid`. -/
def packedFrom (gid : Nat) : List (Option Proj) → List (Nat × Proj)
  | [] => []
  | none :: ps => packedFrom (gid + 1) ps
  | some p :: ps => (gid, p) :: packedFrom (gid + 1) ps

/-- The dense (per-primitive) index a packed index `j` stands for. -/
def packedId (projs : List (Option Proj)) (j : Nat) : Nat :=
  ((packedFrom 0 projs).getD j (0, Proj0)).1

/-- The unsorted intersection records of packed mode: the same records, but
`gaussId` is the packed index into the compacted primitive list. -/
def rawRecordsPacked (nTiles : Nat) (projs : List (Option Proj)) : List IsectRecord :=
  rawRecordsFrom nTiles 0 ((packedFrom 0 projs).map fun q => some q.2)

/-- Modelled from the spec: `rasterize_to_pixels` at one pixel in packed mode.
Identical to the dense mode except that intersection records are indexed by
packed index, and attribute lookups gather through the compaction table. -/
def sortedPacked (nTiles : Nat) (projs : List (Option Proj)) : List IsectRecord :=
  List.insertionSort recLE (rawRecordsPacked nTiles projs)

def rasterize_to_pixels_packed (nTiles : Nat) (v : View) (tid pix : Nat) : PixState :=
  renderPix (fun j => colorAt v.colors (packedId v.projs j))
    (fun j => opacAt v.opacities (packedId v.projs j))
    (fun j => projWeight v.projs pix (packedId v.projs j))
    (((sortedPacked nTiles v.projs).drop
        ((isect_offset_encode (sortedPacked nTiles v.projs) nTiles).getD tid 0)).take
      ((isect_offset_encode (sortedPacked nTiles v.projs) nTiles).getD (tid + 1)
          (sortedPacked nTiles v.projs).length -
        (isect_offset_encode (sortedPacked nTiles v.projs) nTiles).getD tid 0))

/-- A second definition following the spec's words, for the pure reference
implementation `_rasterization` at one pixel: gather the records of the
pixel's tile directly and composite them front-to-back (depth ascending, ties
broken by primitive index), without the global sort or the offset table. -/
def refPixel (nTiles : Nat) (v : View) (tid pix : Nat) : PixState :=
  renderPix (colorAt v.colors) (opacAt v.opacities) (projWeight v.projs pix)
    (List.insertionSort depthLE
      ((rawRecords nTiles v.projs).filter fun r => decide (r.tileId = tid)))

/-- Modelled from the spec: tiles are a "fixed-size rectangular partition of
the output image (e.g. 16×16 pixels)". -/
def tileSize : Nat := 16

/-- Number of tile columns of a `width`-pixel-wide image. -/
def tilesX (width : Nat) : Nat :=
  (width + tileSize - 1) / tileSize

/-- Number of tile rows of a `height`-pixel-high image. -/
def tilesY (height : Nat) : Nat :=
  (height + tileSize - 1) / tileSize

/-- Total number of tiles of the image. -/
def numTiles (width height : Nat) : Nat :=
  tilesX width * tilesY height

/-- The id of the tile owning pixel (x, y), row-major over the tile grid. -/
def tileOfPix (width x y : Nat) : Nat :=
  (y / tileSize) * tilesX width + x / tileSize

/-- The flattened pixel index of pixel (x, y), row-major. -/
def pixId (width x y : Nat) : Nat :=
  y * width + x

/-- The render mode selecting which channels the call produces. -/
inductive RenderMode
  | RGB
  | D
  | RGBD
deriving DecidableEq, Repr

/-- Values per pixel of each render mode: color is 3 values/pixel, depth 1
value/pixel. -/
def channels : RenderMode → Nat
  | .RGB => 3
  | .D => 1
  | .RGBD => 4

/-- The output channel values of one composited pixel in a render mode. -/
def pixChannels (mode : RenderMode) (st : PixState) : List ℚ :=
  match mode with
  | .RGB => [st.color.x, st.color.y, st.color.z]
  | .D => [st.depth]
  | .RGBD => [st.color.x, st.color.y, st.color.z, st.depth]

/-- One pixel of the fused pipeline, in dense or packed intersection
indexing. -/
def viewPixel (packed : Bool) (nTiles : Nat) (v : View) (tid pix : Nat) : PixState :=
  if packed then rasterize_to_pixels_packed nTiles v tid pix
  else rasterize_to_pixels nTiles v tid pix

/-- The rendered image of one view under the fused pipeline: `height` rows of
`width` pixels of `channels mode` values. -/
def renderViewImage (mode : RenderMode) (packed : Bool) (width height : Nat)
    (v : View) : List (List (List ℚ)) :=
  (List.range height).map fun y =>
    (List.range width).map fun x =>
      pixChannels mode
        (viewPixel packed (numTiles width height) v (tileOfPix width x y) (pixId width x y))

/-- The alpha channel of one view under the fused pipeline: one value per
pixel. -/
def renderViewAlphas (packed : Bool) (width height : Nat) (v : View) :
    List (List ℚ) :=
  (List.range height).map fun y =>
    (List.range width).map fun x =>
      (viewPixel packed (numTiles width height) v (tileOfPix width x y) (pixId width x y)).alphaAcc

/-- The rendered image of one view under the reference implementation. -/
def refViewImage (mode : RenderMode) (width height : Nat) (v : View) :
    List (List (List ℚ)) :=
  (List.range height).map fun y =>
    (List.range width).map fun x =>
      pixChannels mode
        (refPixel (numTiles width height) v (tileOfPix width x y) (pixId width x y))

/-- The alpha channel of one view under the reference implementation. -/
def refViewAlphas (width height : Nat) (v : View) : List (List ℚ) :=
  (List.range height).map fun y =>
    (List.range width).map fun x =>
      (refPixel (numTiles width height) v (tileOfPix width x y) (pixId width x y)).alphaAcc

/-- A machine floating-point scalar: either a finite value (modelled as an
exact rational) or a non-finite value (NaN or an infinity). -/
inductive FVal
  | fin (q : ℚ)
  | nonfinite
deriving DecidableEq, Repr

/-- Whether a scalar is finite. -/
def FVal.isFinite : FVal → Bool
  | .fin _ => true
  | .nonfinite => false

/-- The rational value of a finite scalar (0 for non-finite ones; only used
after validation). -/
def fq : FVal → ℚ
  | .fin q => q
  | .nonfinite => 0

/-- Build a rational 3-vector from a scalar triple. -/
def vec3Of (t : FVal × FVal × FVal) : Vec3 :=
  ⟨fq t.1, fq t.2.1, fq t.2.2⟩

/-- Whether all three components of a scalar triple are finite. -/
def fv3Finite (t : FVal × FVal × FVal) : Bool :=
  t.1.isFinite && t.2.1.isFinite && t.2.2.isFinite

/-- Whether all four components of a scalar quadruple are finite. -/
def fv4Finite (t : FVal × FVal × FVal × FVal) : Bool :=
  t.1.isFinite && t.2.1.isFinite && t.2.2.1.isFinite && t.2.2.2.isFinite

/-- Modelled from the spec: the raw input of one render call — "primitive
attributes (center, quaternion, scale, opacity, color/harmonic-coefficients)
as parallel equal-length sequences; one or more camera extrinsic/intrinsic
pairs; output image width/height". -/
structure RasterInput where
  means : List (FVal × FVal × FVal)
  quats : List (FVal × FVal × FVal × FVal)
  scales : List (FVal × FVal × FVal)
  opacities : List FVal
  colors : List (List (FVal × FVal × FVal))
  viewmats : List (List FVal)
  Ks : List (List FVal)
  width : Nat
  height : Nat

/-- Modelled from the spec: a *Primitive* after validation, with exact
rational attributes; the color representation is a list of RGB coefficient
triples (a single triple for a flat color, one per harmonic basis function
otherwise). -/
structure Splat where
  mean : Vec3
  quat : ℚ × ℚ × ℚ × ℚ
  scale : Vec3
  opacity : ℚ
  color : List Vec3
deriving DecidableEq, Repr

/-- A degenerate primitive, used as a lookup default. -/
def Splat0 : Splat :=
  ⟨⟨0, 0, 0⟩, (0, 0, 0, 0), ⟨0, 0, 0⟩, 0, []⟩

/-- The validated primitive list of a render call's input. -/
def splatsOf (inp : RasterInput) : List Splat :=
  (List.range inp.means.length).map fun i =>
    { mean := vec3Of (inp.means.getD i (FVal.fin 0, FVal.fin 0, FVal.fin 0))
      quat := (fq (inp.quats.getD i (FVal.fin 0, FVal.fin 0, FVal.fin 0, FVal.fin 0)).1,
               fq (inp.quats.getD i (FVal.fin 0, FVal.fin 0, FVal.fin 0, FVal.fin 0)).2.1,
               fq (inp.quats.getD i (FVal.fin 0, FVal.fin 0, FVal.fin 0, FVal.fin 0)).2.2.1,
               fq (inp.quats.getD i (FVal.fin 0, FVal.fin 0, FVal.fin 0, FVal.fin 0)).2.2.2)
      scale := vec3Of (inp.scales.getD i (FVal.fin 0, FVal.fin 0, FVal.fin 0))
      opacity := fq (inp.opacities.getD i (FVal.fin 0))
      color := (inp.colors.getD i []).map vec3Of }

/-- Modelled from the spec: input validation of `rasterization` — "non-finite
values in camera or primitive attributes, mismatched batch/array lengths,
non-positive scale, zero-size image" are invalid. -/
def validInput (inp : RasterInput) : Bool :=
  (inp.quats.length == inp.means.length) &&
  (inp.scales.length == inp.means.length) &&
  (inp.opacities.length == inp.means.length) &&
  (inp.colors.length == inp.means.length) &&
  (inp.Ks.length == inp.viewmats.length) &&
  inp.means.all fv3Finite &&
  inp.quats.all fv4Finite &&
  inp.scales.all (fun s => fv3Finite s && decide (0 < fq s.1) &&
    decide (0 < fq s.2.1) && decide (0 < fq s.2.2)) &&
  inp.opacities.all FVal.isFinite &&
  inp.colors.all (fun c => c.all fv3Finite) &&
  inp.viewmats.all (fun m => m.all FVal.isFinite) &&
  inp.Ks.all (fun k => k.all FVal.isFinite) &&
  decide (0 < inp.width) && decide (0 < inp.height)

/-- The error a render call signals on invalid input. -/
inductive RenderError
  | invalidInput
deriving DecidableEq, Repr

/-- The view of camera index `cam`: every primitive projected by the (camera
transform + covariance projection) function `projFn` and colored by the
(spherical harmonics) color evaluator `colorFn`. -/
def viewOf (projFn : Nat → Splat → Option Proj) (colorFn : Nat → Splat → Vec3)
    (splats : List Splat) (cam : Nat) : View :=
  ⟨splats.map (projFn cam), splats.map (colorFn cam), splats.map (·.opacity)⟩

/-- Modelled from the spec: the fused public entry point `rasterization`
(re-exported by `gsplat/__init__.py`; body not in the excerpt).  Validates the
input before any stage executes, then renders every camera through the fused
pipeline (projection → binning/sort → offsets → tile compositing), returning
per-camera renders and alphas.  `projFn` and `colorFn` are the projection and
color-evaluation stages, whose numeric bodies are not in the excerpt. -/
def rasterization (projFn : Nat → Splat → Option Proj)
    (colorFn : Nat → Splat → Vec3) (mode : RenderMode) (packed : Bool)
    (inp : RasterInput) :
    Except RenderError (List (List (List (List ℚ))) × List (List (List ℚ))) :=
  if validInput inp then
    .ok ((List.range inp.viewmats.length).map fun c =>
           renderViewImage mode packed inp.width inp.height
             (viewOf projFn colorFn (splatsOf inp) c),
         (List.range inp.viewmats.length).map fun c =>
           renderViewAlphas packed inp.width inp.height
             (viewOf projFn colorFn (splatsOf inp) c))
  else .error RenderError.invalidInput

/-- A second definition following the spec's words, for the pure reference
implementation `_rasterization` exercised by `tests/test_rasterization.py`:
the same contract, realized per pixel without the fused kernels. -/
def _rasterization (projFn : Nat → Splat → Option Proj)
    (colorFn : Nat → Splat → Vec3) (mode : RenderMode) (inp : RasterInput) :
    Except RenderError (List (List (List (List ℚ))) × List (List (List ℚ))) :=
  if validInput inp then
    .ok ((List.range inp.viewmats.length).map fun c =>
           refViewImage mode inp.width inp.height
             (viewOf projFn colorFn (splatsOf inp) c),
         (List.range inp.viewmats.length).map fun c =>
           refViewAlphas inp.width inp.height
             (viewOf projFn colorFn (splatsOf inp) c))
  else .error RenderError.invalidInput

/-- Relabel the primitive index of a record, keeping tile and depth. -/
def relabelRec (φ : Nat → Nat) (r : IsectRecord) : IsectRecord :=
  ⟨r.tileId, r.depth, φ r.gaussId⟩

/-- Relabel one intersection record of batch element `b`: the batch dimension
is flattened into the tile and primitive index spaces. -/
def shiftRec (nTiles n b : Nat) (r : IsectRecord) : IsectRecord :=
  ⟨b * nTiles + r.tileId, r.depth, b * n + r.gaussId⟩

/-- Modelled from the spec: the unsorted intersection records of a batched
call — "flattening the batch dimension into the primitive/tile index space
rather than nesting separate pipeline invocations".  `b` is the batch index
assigned to the head view; `n` is the per-view primitive index stride. -/
def batchRawFrom (nTiles n b : Nat) : List View → List IsectRecord
  | [] => []
  | v :: vs => (rawRecords nTiles v.projs).map (shiftRec nTiles n b) ++
      batchRawFrom nTiles n (b + 1) vs

/-- The unsorted intersection records of a batched call, batches numbered
from 0. -/
def batchRawRecords (nTiles n : Nat) (views : List View) : List IsectRecord :=
  batchRawFrom nTiles n 0 views

/-- Per-primitive color lookup of a batched call, by flattened index. -/
def batchColor (n : Nat) (views : List View) (g : Nat) : Vec3 :=
  colorAt (views.getD (g / n) View0).colors (g % n)

/-- Per-primitive opacity lookup of a batched call, by flattened index. -/
def batchOpac (n : Nat) (views : List View) (g : Nat) : ℚ :=
  opacAt (views.getD (g / n) View0).opacities (g % n)

/-- Per-primitive density lookup of a batched call, by flattened index. -/
def batchWeight (n : Nat) (views : List View) (pix g : Nat) : ℚ :=
  projWeight (views.getD (g / n) View0).projs pix (g % n)

/-- Modelled from the spec: one pixel of batch element `b` in a batched fused
call.  The whole batch shares one sorted record list and one offset table
over the flattened tile index space. -/
def sortedBatch (nTiles n : Nat) (views : List View) : List IsectRecord :=
  List.insertionSort recLE (batchRawRecords nTiles n views)

def rasterize_to_pixels_batched (nTiles n : Nat) (views : List View)
    (b tid pix : Nat) : PixState :=
  renderPix (batchColor n views) (batchOpac n views) (batchWeight n views pix)
    (((sortedBatch nTiles n views).drop
        ((isect_offset_encode (sortedBatch nTiles n views) (views.length * nTiles)).getD
          (b * nTiles + tid) 0)).take
      ((isect_offset_encode (sortedBatch nTiles n views) (views.length * nTiles)).getD
          (b * nTiles + tid + 1) (sortedBatch nTiles n views).length -
        (isect_offset_encode (sortedBatch nTiles n views) (views.length * nTiles)).getD
          (b * nTiles + tid) 0))

/-- The rendered image of batch element `b` of a batched fused call. -/
def renderBatchedImage (mode : RenderMode) (width height n : Nat)
    (views : List View) (b : Nat) : List (List (List ℚ)) :=
  (List.range height).map fun y =>
    (List.range width).map fun x =>
      pixChannels mode
        (rasterize_to_pixels_batched (numTiles width height) n views b
          (tileOfPix width x y) (pixId width x y))

/-- The alpha channel of batch element `b` of a batched fused call. -/
def renderBatchedAlphas (width height n : Nat) (views : List View) (b : Nat) :
    List (List ℚ) :=
  (List.range height).map fun y =>
    (List.range width).map fun x =>
      (rasterize_to_pixels_batched (numTiles width height) n views b
        (tileOfPix width x y) (pixId width x y)).alphaAcc

/-- A concrete sorted record list used to exercise the offset table. -/
def recsW : List IsectRecord :=
  [⟨0, 1, 0⟩, ⟨2, 5, 1⟩]

/-- A concrete projected-primitive list used to exercise the sort. -/
def projsW : List (Option Proj) :=
  [some ⟨1, [0], fun _ => 0⟩]

/-- A concrete one-view batch used to exercise batched rendering. -/
def viewsW : List View :=
  [⟨[some ⟨1, [0], fun _ => 0⟩], [⟨1, 1, 1⟩], [1]⟩]

/-- A concrete valid input with no primitives and no cameras. -/
def inpW6 : RasterInput :=
  ⟨[], [], [], [], [], [], [], 1, 1⟩

/-- A concrete valid input with one zero-opacity primitive. -/
def inpW1 : RasterInput :=
  ⟨[(FVal.fin 0, FVal.fin 0, FVal.fin 0)],
   [(FVal.fin 1, FVal.fin 0, FVal.fin 0, FVal.fin 0)],
   [(FVal.fin 1, FVal.fin 1, FVal.fin 1)],
   [FVal.fin 0],
   [[(FVal.fin 1, FVal.fin 0, FVal.fin 0)]],
   [], [], 1, 1⟩

/-- The same input with the zero-opacity primitive's center moved. -/
def inpW2 : RasterInput :=
  ⟨[(FVal.fin 5, FVal.fin 0, FVal.fin 0)],
   [(FVal.fin 1, FVal.fin 0, FVal.fin 0, FVal.fin 0)],
   [(FVal.fin 1, FVal.fin 1, FVal.fin 1)],
   [FVal.fin 0],
   [[(FVal.fin 1, FVal.fin 0, FVal.fin 0)]],
   [], [], 1, 1⟩

/-- A concrete invalid input: zero-width image. -/
def inpW10 : RasterInput :=
  ⟨[], [], [], [], [], [], [], 0, 1⟩

/-- A concrete color table used to exercise the compositing bounds. -/
def cW : Nat → Vec3 := fun _ => ⟨1/2, 1/2, 1/2⟩

/-- A concrete opacity table used to exercise the compositing bounds. -/
def oW : Nat → ℚ := fun _ => 1/2

/-- A concrete density table used to exercise the compositing bounds. -/
def wW : Nat → ℚ := fun _ => 1

/-- A concrete record list used to exercise the compositing bounds. -/
def recsW7 : List IsectRecord := [⟨0, 1, 0⟩]

/-- The compositing invariant of a pixel accumulator, under colors, opacities
and densities all in [0, 1]: transmittance stays in [0, 1], accumulated alpha
is exactly one minus transmittance, and each color channel stays between 0
and the accumulated alpha. -/
def PixInv (st : PixState) : Prop :=
  0 ≤ st.trans ∧ st.trans ≤ 1 ∧ st.alphaAcc + st.trans = 1 ∧
  0 ≤ st.color.x ∧ st.color.x ≤ st.alphaAcc ∧
  0 ≤ st.color.y ∧ st.color.y ≤ st.alphaAcc ∧
  0 ≤ st.color.z ∧ st.color.z ≤ st.alphaAcc

/-- Unfolded characterization of the composite key order. -/
theorem recLE_iff (a b : IsectRecord) :
    recLE a b ↔ a.tileId < b.tileId ∨
      (a.tileId = b.tileId ∧ (a.depth < b.depth ∨
        (a.depth = b.depth ∧ a.gaussId ≤ b.gaussId))) := by
  unfold recLE recKey
  rw [Prod.Lex.le_iff]
  constructor
  · rintro (h | ⟨h1, h2⟩)
    · exact Or.inl h
    · refine Or.inr ⟨h1, ?_⟩
      rw [Prod.Lex.le_iff] at h2
      exact h2
  · rintro (h | ⟨h1, h2⟩)
    · exact Or.inl h
    · exact Or.inr ⟨h1, (Prod.Lex.le_iff _ _).mpr h2⟩

/-- Unfolded characterization of the per-tile depth order. -/
theorem depthLE_iff (a b : IsectRecord) :
    depthLE a b ↔ a.depth < b.depth ∨ (a.depth = b.depth ∧ a.gaussId ≤ b.gaussId) := by
  unfold depthLE
  exact Prod.Lex.le_iff _ _

theorem take_countP_of_pairwise {α : Type} (p : α → Bool) (l : List α)
    (h : l.Pairwise fun a b => p b = true → p a = true) :
    l.take (l.countP p) = l.filter p := by
  induction l with
  | nil => rfl
  | cons a l ih =>
    rw [List.pairwise_cons] at h
    by_cases hpa : p a = true
    · rw [List.countP_cons, if_pos hpa, List.take_succ_cons, List.filter_cons,
        if_pos hpa, ih h.2]
    · have hz : l.countP p = 0 := by
        rw [List.countP_eq_zero]
        intro b hb hpb
        exact hpa (h.1 b hb hpb)
      rw [List.countP_cons, if_neg hpa, hz, List.take_zero, List.filter_cons,
        if_neg hpa]
      symm
      rw [List.filter_eq_nil_iff]
      intro b hb hpb
      rw [List.countP_eq_zero] at hz
      exact hz b hb hpb

theorem drop_countP_of_pairwise {α : Type} (p : α → Bool) (l : List α)
    (h : l.Pairwise fun a b => p b = true → p a = true) :
    l.drop (l.countP p) = l.filter fun a => ! p a := by
  induction l with
  | nil => rfl
  | cons a l ih =>
    rw [List.pairwise_cons] at h
    by_cases hpa : p a = true
    · rw [List.countP_cons, if_pos hpa, List.drop_succ_cons, ih h.2,
        List.filter_cons, if_neg (by simp [hpa])]
    · have hz : l.countP p = 0 := by
        rw [List.countP_eq_zero]
        intro b hb hpb
        exact hpa (h.1 b hb hpb)
      rw [List.countP_cons, if_neg hpa, hz, Nat.add_zero, List.drop_zero,
        List.filter_cons, if_pos (by simp [hpa]), eq_comm]
      congr 1
      rw [List.filter_eq_self]
      intro b hb
      rw [List.countP_eq_zero] at hz
      simp [hz b hb]

theorem countP_lt_succ_split (t : Nat) (l : List IsectRecord) :
    (l.countP fun r => decide (r.tileId < t + 1)) =
      (l.countP fun r => decide (r.tileId < t + 1) && ! decide (r.tileId < t)) +
      (l.countP fun r => decide (r.tileId < t)) := by
  induction l with
  | nil => rfl
  | cons a l ih =>
    simp only [List.countP_cons, ih]
    by_cases h1 : a.tileId < t
    · have h2 : a.tileId < t + 1 := by omega
      simp [h1, h2]
      omega
    · by_cases h2 : a.tileId < t + 1
      · simp [h1, h2]
        omega
      · simp [h1, h2]

/-- In a sorted record list, tile ids are nondecreasing. -/
theorem sorted_tileId_mono {recs : List IsectRecord} (hs : recs.Sorted recLE) :
    recs.Pairwise fun a b => a.tileId ≤ b.tileId := by
  refine hs.imp fun hab => ?_
  rw [recLE_iff] at hab
  rcases hab with h | ⟨h, _⟩
  · exact Nat.le_of_lt h
  · exact Nat.le_of_eq h

/-- For a sorted record list, the offset table's range for tile `t` is
exactly the sublist of records whose tile id is `t`. -/
theorem tileRange_eq_filter (recs : List IsectRecord) (t : Nat)
    (hs : recs.Sorted recLE) :
    tileRange recs t = recs.filter fun r => decide (r.tileId = t) := by
  have hmono := sorted_tileId_mono hs
  have hq : ∀ s : Nat, recs.Pairwise fun a b =>
      (decide (b.tileId < s)) = true → (decide (a.tileId < s)) = true := by
    intro s
    refine hmono.imp fun hab hb => ?_
    simp only [decide_eq_true_eq] at hb ⊢
    omega
  unfold tileRange tileStart
  rw [drop_countP_of_pairwise _ _ (hq t)]
  have hcount : ((recs.filter fun a => ! decide (a.tileId < t)).countP
      fun r => decide (r.tileId < t + 1)) =
      (recs.countP fun r => decide (r.tileId < t + 1)) -
        (recs.countP fun r => decide (r.tileId < t)) := by
    rw [List.countP_filter]
    have hsplit := countP_lt_succ_split t recs
    omega
  rw [← hcount, take_countP_of_pairwise _ _
    (hq (t + 1) |>.filter _), List.filter_filter]
  apply List.filter_congr
  intro r _
  by_cases h1 : r.tileId < t
  · have h3 : ¬ r.tileId = t := by omega
    simp [h1, h3]
  · by_cases h2 : r.tileId < t + 1
    · have h3 : r.tileId = t := by omega
      simp [h1, h2, h3]
    · have h3 : ¬ r.tileId = t := by omega
      simp [h1, h2, h3]

/-- Sorting the intersection records is deterministic: any sorted
rearrangement of a record list equals the insertion-sorted list. -/
theorem sorted_perm_unique {l m : List IsectRecord} (hperm : l.Perm m)
    (hl : l.Sorted recLE) :
    l = List.insertionSort recLE m :=
  List.eq_of_perm_of_sorted (hperm.trans (List.perm_insertionSort recLE m).symm)
    hl (List.sorted_insertionSort recLE m)

/-- Filtering commutes with the binning sort. -/
theorem filter_insertionSort (p : IsectRecord → Bool) (l : List IsectRecord) :
    (List.insertionSort recLE l).filter p = List.insertionSort recLE (l.filter p) :=
  sorted_perm_unique (((List.perm_insertionSort recLE l)).filter p)
    ((List.sorted_insertionSort recLE l).filter p)

theorem isect_offset_encode_get (recs : List IsectRecord) (nTiles t d : Nat)
    (ht : t < nTiles) :
    (isect_offset_encode recs nTiles).getD t d = tileStart recs t := by
  unfold isect_offset_encode tileStart
  rw [List.getD_eq_getElem?_getD, List.getElem?_map]
  simp [List.getElem?_range ht]

theorem isect_offset_encode_length (recs : List IsectRecord) (nTiles : Nat) :
    (isect_offset_encode recs nTiles).length = nTiles := by
  unfold isect_offset_encode
  rw [List.length_map, List.length_range]

/-- Every record of one primitive carries that primitive's index and an
in-grid tile id. -/
theorem recsOf_mem {nTiles gid : Nat} {p? : Option Proj} {r : IsectRecord}
    (hr : r ∈ recsOf nTiles gid p?) : r.gaussId = gid ∧ r.tileId < nTiles := by
  cases p? with
  | none => simp [recsOf] at hr
  | some p =>
    simp only [recsOf, List.mem_map, List.mem_filter] at hr
    obtain ⟨t, ⟨_, hlt⟩, rfl⟩ := hr
    exact ⟨rfl, by simpa using hlt⟩

/-- Raw records carry primitive indices in the enumerated range and in-grid
tile ids. -/
theorem rawRecordsFrom_mem {nTiles gid : Nat} {ps : List (Option Proj)}
    {r : IsectRecord} (hr : r ∈ rawRecordsFrom nTiles gid ps) :
    gid ≤ r.gaussId ∧ r.gaussId < gid + ps.length ∧ r.tileId < nTiles := by
  induction ps generalizing gid with
  | nil => simp [rawRecordsFrom] at hr
  | cons p ps ih =>
    rw [rawRecordsFrom, List.mem_append] at hr
    rcases hr with h | h
    · have hm := recsOf_mem h
      refine ⟨Nat.le_of_eq hm.1.symm, ?_, hm.2⟩
      rw [hm.1]
      simp
    · have hm := ih h
      refine ⟨by omega, ?_, hm.2.2⟩
      have := hm.2.1
      simp only [List.length_cons]
      omega

theorem rawRecords_mem {nTiles : Nat} {projs : List (Option Proj)}
    {r : IsectRecord} (hr : r ∈ rawRecords nTiles projs) :
    r.gaussId < projs.length ∧ r.tileId < nTiles := by
  have := rawRecordsFrom_mem hr
  omega

theorem isect_tiles_sorted_le (nTiles : Nat) (projs : List (Option Proj)) :
    (isect_tiles nTiles projs).Sorted recLE := by
  rw [isect_tiles]
  exact List.sorted_insertionSort recLE _

theorem isect_tiles_perm (nTiles : Nat) (projs : List (Option Proj)) :
    (isect_tiles nTiles projs).Perm (rawRecords nTiles projs) :=
  List.perm_insertionSort recLE _

theorem isect_tiles_mem {nTiles : Nat} {projs : List (Option Proj)}
    {r : IsectRecord} (hr : r ∈ isect_tiles nTiles projs) :
    r.gaussId < projs.length ∧ r.tileId < nTiles :=
  rawRecords_mem ((isect_tiles_perm nTiles projs).mem_iff.mp hr)

/-- When every record's tile is in the grid, the boundary at the end of the
grid is the total record count. -/
theorem tileStart_last (recs : List IsectRecord) (nTiles : Nat)
    (hb : ∀ r ∈ recs, r.tileId < nTiles) :
    tileStart recs nTiles = recs.length := by
  unfold tileStart
  rw [List.countP_eq_length]
  intro r hr
  simpa using hb r hr

/-- The record range cut out of a sorted in-grid record list by the offset
table is the tile's range. -/
theorem slice_eq_tileRange (recs : List IsectRecord) (nTiles tid : Nat)
    (ht : tid < nTiles) (hb : ∀ r ∈ recs, r.tileId < nTiles) :
    (recs.drop ((isect_offset_encode recs nTiles).getD tid 0)).take
      ((isect_offset_encode recs nTiles).getD (tid + 1) recs.length -
        (isect_offset_encode recs nTiles).getD tid 0) = tileRange recs tid := by
  rw [isect_offset_encode_get recs nTiles tid 0 ht]
  by_cases h : tid + 1 < nTiles
  · rw [isect_offset_encode_get recs nTiles _ _ h]
    rfl
  · have heq : tid + 1 = nTiles := by omega
    have hout : (isect_offset_encode recs nTiles).getD (tid + 1) recs.length =
        recs.length := by
      apply List.getD_eq_default
      rw [isect_offset_encode_length]
      omega
    rw [hout, tileRange]
    rw [show tileStart recs (tid + 1) = recs.length from heq ▸ tileStart_last recs nTiles hb]

/-- The fused per-pixel rasterizer composites exactly the sorted records of
the pixel's tile. -/
theorem rasterize_to_pixels_char (nTiles : Nat) (v : View) (tid pix : Nat)
    (ht : tid < nTiles) :
    rasterize_to_pixels nTiles v tid pix =
      renderPix (colorAt v.colors) (opacAt v.opacities) (projWeight v.projs pix)
        ((isect_tiles nTiles v.projs).filter fun r => decide (r.tileId = tid)) := by
  rw [rasterize_to_pixels,
    slice_eq_tileRange _ nTiles tid ht (fun r hr => (isect_tiles_mem hr).2),
    tileRange_eq_filter _ tid (isect_tiles_sorted_le nTiles v.projs)]

theorem foldl_accumulate_congr {c₁ c₂ : Nat → Vec3} {o₁ o₂ w₁ w₂ : Nat → ℚ}
    {recs : List IsectRecord}
    (h : ∀ r ∈ recs, c₁ r.gaussId = c₂ r.gaussId ∧ o₁ r.gaussId = o₂ r.gaussId ∧
      w₁ r.gaussId = w₂ r.gaussId) (st : PixState) :
    recs.foldl (accumulate c₁ o₁ w₁) st = recs.foldl (accumulate c₂ o₂ w₂) st := by
  induction recs generalizing st with
  | nil => rfl
  | cons r l ih =>
    have hr := h r (List.mem_cons_self r l)
    rw [List.foldl_cons, List.foldl_cons,
      show accumulate c₁ o₁ w₁ st r = accumulate c₂ o₂ w₂ st r by
        unfold accumulate
        rw [hr.1, hr.2.1, hr.2.2]]
    exact ih (fun r' hr' => h r' (List.mem_cons_of_mem r hr')) _

/-- Compositing only reads the attribute tables at the indices of the records
being composited. -/
theorem renderPix_table_congr {c₁ c₂ : Nat → Vec3} {o₁ o₂ w₁ w₂ : Nat → ℚ}
    {recs : List IsectRecord}
    (h : ∀ r ∈ recs, c₁ r.gaussId = c₂ r.gaussId ∧ o₁ r.gaussId = o₂ r.gaussId ∧
      w₁ r.gaussId = w₂ r.gaussId) :
    renderPix c₁ o₁ w₁ recs = renderPix c₂ o₂ w₂ recs :=
  foldl_accumulate_congr h initPix

/-- Compositing relabeled records equals compositing the original records
with relabeled attribute lookups. -/
theorem renderPix_relabel (c : Nat → Vec3) (o w : Nat → ℚ) (φ : Nat → Nat)
    (l : List IsectRecord) :
    renderPix c o w (l.map (relabelRec φ)) =
      renderPix (fun g => c (φ g)) (fun g => o (φ g)) (fun g => w (φ g)) l := by
  rw [renderPix, renderPix, List.foldl_map]
  rfl

/-- Compositing batch-shifted records equals compositing the original records
with shifted attribute lookups. -/
theorem renderPix_shiftRec (c : Nat → Vec3) (o w : Nat → ℚ) (nT n b : Nat)
    (l : List IsectRecord) :
    renderPix c o w (l.map (shiftRec nT n b)) =
      renderPix (fun g => c (b * n + g)) (fun g => o (b * n + g))
        (fun g => w (b * n + g)) l := by
  rw [renderPix, renderPix, List.foldl_map]
  rfl

/-- A key-monotone relabeling commutes with the binning sort. -/
theorem insertionSort_map_mono (f : IsectRecord → IsectRecord)
    (l : List IsectRecord)
    (hmono : ∀ a b, a ∈ l → b ∈ l → recLE a b → recLE (f a) (f b)) :
    List.insertionSort recLE (l.map f) = (List.insertionSort recLE l).map f := by
  symm
  apply sorted_perm_unique ((List.perm_insertionSort recLE l).map f)
  rw [List.Sorted, List.pairwise_map]
  refine List.Pairwise.imp_of_mem ?_ (List.sorted_insertionSort recLE l)
  intro a b ha hb hab
  exact hmono a b ((List.perm_insertionSort recLE l).subset ha)
    ((List.perm_insertionSort recLE l).subset hb) hab

/-- Offset tables ignore primitive relabeling. -/
theorem isect_offset_encode_relabel (φ : Nat → Nat) (recs : List IsectRecord)
    (nTiles : Nat) :
    isect_offset_encode (recs.map (relabelRec φ)) nTiles =
      isect_offset_encode recs nTiles := by
  unfold isect_offset_encode
  apply List.map_congr_left
  intro t _
  rw [List.countP_map]
  rfl

theorem packedFrom_ge {gid : Nat} {ps : List (Option Proj)} :
    ∀ q ∈ packedFrom gid ps, gid ≤ q.1 := by
  induction ps generalizing gid with
  | nil => simp [packedFrom]
  | cons p ps ih =>
    cases p with
    | none =>
      rw [packedFrom]
      intro q hq
      have := ih q hq
      omega
    | some p =>
      rw [packedFrom]
      intro q hq
      rcases List.mem_cons.mp hq with rfl | hq'
      · exact le_refl _
      · have := ih q hq'
        omega

theorem packedFrom_pairwise (gid : Nat) (ps : List (Option Proj)) :
    (packedFrom gid ps).Pairwise fun a b => a.1 < b.1 := by
  induction ps generalizing gid with
  | nil => exact List.Pairwise.nil
  | cons p ps ih =>
    cases p with
    | none =>
      rw [packedFrom]
      exact ih (gid + 1)
    | some p =>
      rw [packedFrom, List.pairwise_cons]
      refine ⟨fun q hq => ?_, ih (gid + 1)⟩
      have := packedFrom_ge q hq
      omega

/-- The packed-to-dense index translation is strictly increasing on valid
packed indices. -/
theorem packedId_lt_of_lt {projs : List (Option Proj)} {j k : Nat}
    (hjk : j < k) (hk : k < (packedFrom 0 projs).length) :
    packedId projs j < packedId projs k := by
  have hp := packedFrom_pairwise 0 projs
  rw [List.pairwise_iff_getElem] at hp
  have hj : j < (packedFrom 0 projs).length := lt_trans hjk hk
  have := hp j k hj hk hjk
  unfold packedId
  rw [List.getD_eq_getElem?_getD, List.getD_eq_getElem?_getD,
    List.getElem?_eq_getElem hj, List.getElem?_eq_getElem hk]
  exact this

/-- The dense raw records are the packed raw records with their primitive
indices translated through the compaction table. -/
theorem rawRecordsFrom_packed (nTiles : Nat) (ps : List (Option Proj)) (g j : Nat) :
    rawRecordsFrom nTiles g ps =
      (rawRecordsFrom nTiles j ((packedFrom g ps).map fun q => some q.2)).map
        (relabelRec fun k => ((packedFrom g ps).getD (k - j) (0, Proj0)).1) := by
  induction ps generalizing g j with
  | nil => rfl
  | cons p ps ih =>
    cases p with
    | none =>
      rw [rawRecordsFrom, show recsOf nTiles g none = [] from rfl, List.nil_append,
        packedFrom]
      exact ih (g + 1) j
    | some p =>
      rw [rawRecordsFrom, packedFrom, List.map_cons, rawRecordsFrom, List.map_append]
      congr 1
      · rw [recsOf, recsOf, List.map_map]
        apply List.map_congr_left
        intro t _
        simp [relabelRec]
      · rw [ih (g + 1) (j + 1)]
        apply List.map_congr_left
        intro r hr
        have hge := (rawRecordsFrom_mem hr).1
        unfold relabelRec
        have hidx : r.gaussId - j = (r.gaussId - (j + 1)) + 1 := by omega
        simp only []
        rw [hidx, List.getD_cons_succ]

theorem rawRecords_packed_map (nTiles : Nat) (projs : List (Option Proj)) :
    rawRecords nTiles projs =
      (rawRecordsPacked nTiles projs).map (relabelRec (packedId projs)) := by
  rw [rawRecords, rawRecordsFrom_packed nTiles projs 0 0, rawRecordsPacked]
  apply List.map_congr_left
  intro r _
  unfold relabelRec packedId
  simp only []
  rw [Nat.sub_zero]

theorem rawRecordsPacked_mem {nTiles : Nat} {projs : List (Option Proj)}
    {r : IsectRecord} (hr : r ∈ rawRecordsPacked nTiles projs) :
    r.gaussId < (packedFrom 0 projs).length ∧ r.tileId < nTiles := by
  have := rawRecordsFrom_mem hr
  rw [List.length_map] at this
  omega

/-- The sorted dense records are the sorted packed records, relabeled. -/
theorem isect_tiles_eq_sortedPacked (nTiles : Nat) (projs : List (Option Proj)) :
    isect_tiles nTiles projs =
      (sortedPacked nTiles projs).map (relabelRec (packedId projs)) := by
  rw [isect_tiles, rawRecords_packed_map nTiles projs, sortedPacked]
  apply insertionSort_map_mono
  intro a b ha hb hab
  have hbb := (rawRecordsPacked_mem hb).1
  rw [recLE_iff] at hab ⊢
  unfold relabelRec
  rcases hab with h | ⟨h1, h | ⟨h2, h3⟩⟩
  · exact Or.inl h
  · exact Or.inr ⟨h1, Or.inl h⟩
  · rcases Nat.lt_or_ge a.gaussId b.gaussId with hlt | hge
    · exact Or.inr ⟨h1, Or.inr ⟨h2, le_of_lt (packedId_lt_of_lt hlt hbb)⟩⟩
    · have heq : a.gaussId = b.gaussId := by omega
      exact Or.inr ⟨h1, Or.inr ⟨h2, by rw [heq]⟩⟩

/-- C4 at one pixel: packed and dense intersection indexing composite
identically. -/
theorem packed_eq_dense_pixel (nTiles : Nat) (v : View) (tid pix : Nat) :
    rasterize_to_pixels_packed nTiles v tid pix =
      rasterize_to_pixels nTiles v tid pix := by
  rw [rasterize_to_pixels, rasterize_to_pixels_packed,
    isect_tiles_eq_sortedPacked nTiles v.projs,
    isect_offset_encode_relabel, List.length_map, ← List.map_drop, ← List.map_take,
    renderPix_relabel]

/-- The fused per-pixel rasterizer agrees with the reference per-pixel
rasterizer on every in-grid tile. -/
theorem dense_eq_refPixel (nTiles : Nat) (v : View) (tid pix : Nat)
    (ht : tid < nTiles) :
    rasterize_to_pixels nTiles v tid pix = refPixel nTiles v tid pix := by
  rw [rasterize_to_pixels_char nTiles v tid pix ht, refPixel]
  congr 1
  rw [isect_tiles, filter_insertionSort]
  symm
  apply sorted_perm_unique (List.perm_insertionSort depthLE _)
  refine List.Pairwise.imp_of_mem ?_ (List.sorted_insertionSort depthLE _)
  intro a b ha hb hab
  have ha' := List.mem_filter.mp ((List.perm_insertionSort depthLE
    ((rawRecords nTiles v.projs).filter fun r => decide (r.tileId = tid))).subset ha)
  have hb' := List.mem_filter.mp ((List.perm_insertionSort depthLE
    ((rawRecords nTiles v.projs).filter fun r => decide (r.tileId = tid))).subset hb)
  rw [depthLE_iff] at hab
  rw [recLE_iff]
  refine Or.inr ⟨?_, hab⟩
  have h1 : a.tileId = tid := by simpa using ha'.2
  have h2 : b.tileId = tid := by simpa using hb'.2
  rw [h1, h2]

theorem initPix_inv : PixInv initPix := by
  unfold PixInv initPix
  norm_num

/-- One compositing step preserves the accumulator invariant when opacities,
densities and colors are in [0, 1]. -/
theorem accumulate_inv {c : Nat → Vec3} {o w : Nat → ℚ}
    (hc : ∀ g, 0 ≤ (c g).x ∧ (c g).x ≤ 1 ∧ 0 ≤ (c g).y ∧ (c g).y ≤ 1 ∧
      0 ≤ (c g).z ∧ (c g).z ≤ 1)
    (ho : ∀ g, 0 ≤ o g ∧ o g ≤ 1) (hw : ∀ g, 0 ≤ w g ∧ w g ≤ 1)
    {st : PixState} (hst : PixInv st) (r : IsectRecord) :
    PixInv (accumulate c o w st r) := by
  obtain ⟨ht0, ht1, hat, hx0, hx1, hy0, hy1, hz0, hz1⟩ := hst
  have ha0 : 0 ≤ o r.gaussId * w r.gaussId :=
    mul_nonneg (ho r.gaussId).1 (hw r.gaussId).1
  have ha1 : o r.gaussId * w r.gaussId ≤ 1 :=
    mul_le_one₀ (ho r.gaussId).2 (hw r.gaussId).1 (hw r.gaussId).2
  obtain ⟨hcx0, hcx1, hcy0, hcy1, hcz0, hcz1⟩ := hc r.gaussId
  unfold accumulate PixInv
  simp only []
  have haT : 0 ≤ o r.gaussId * w r.gaussId * st.trans := mul_nonneg ha0 ht0
  refine ⟨mul_nonneg ht0 (by linarith), ?_, by ring_nf; nlinarith [hat], ?_, ?_, ?_, ?_, ?_, ?_⟩
  · nlinarith
  · nlinarith [mul_nonneg (mul_nonneg hcx0 ha0) ht0]
  · nlinarith [mul_le_of_le_one_left haT hcx1]
  · nlinarith [mul_nonneg (mul_nonneg hcy0 ha0) ht0]
  · nlinarith [mul_le_of_le_one_left haT hcy1]
  · nlinarith [mul_nonneg (mul_nonneg hcz0 ha0) ht0]
  · nlinarith [mul_le_of_le_one_left haT hcz1]

/-- The accumulator invariant holds after compositing any record list. -/
theorem foldl_accumulate_inv {c : Nat → Vec3} {o w : Nat → ℚ}
    (hc : ∀ g, 0 ≤ (c g).x ∧ (c g).x ≤ 1 ∧ 0 ≤ (c g).y ∧ (c g).y ≤ 1 ∧
      0 ≤ (c g).z ∧ (c g).z ≤ 1)
    (ho : ∀ g, 0 ≤ o g ∧ o g ≤ 1) (hw : ∀ g, 0 ≤ w g ∧ w g ≤ 1)
    (recs : List IsectRecord) {st : PixState} (hst : PixInv st) :
    PixInv (recs.foldl (accumulate c o w) st) := by
  induction recs generalizing st with
  | nil => exact hst
  | cons r l ih => exact ih (accumulate_inv hc ho hw hst r)

theorem scanl_head {α β : Type} (f : β → α → β) (st : β) (l : List α) :
    (l.scanl f st).head? = some st := by
  cases l <;> rfl

/-- The transmittance of consecutive compositing states is nonincreasing. -/
theorem scanl_trans_chain {c : Nat → Vec3} {o w : Nat → ℚ}
    (ho : ∀ g, 0 ≤ o g ∧ o g ≤ 1) (hw : ∀ g, 0 ≤ w g ∧ w g ≤ 1)
    (recs : List IsectRecord) {st : PixState} (hst : 0 ≤ st.trans) :
    (recs.scanl (accumulate c o w) st).Chain' fun s s' => s'.trans ≤ s.trans := by
  induction recs generalizing st with
  | nil => simp [List.scanl]
  | cons r l ih =>
    rw [List.scanl_cons, List.singleton_append, List.chain'_cons']
    have ha0 : 0 ≤ o r.gaussId * w r.gaussId :=
      mul_nonneg (ho r.gaussId).1 (hw r.gaussId).1
    constructor
    · intro s hs
      rw [scanl_head, Option.mem_def, Option.some_inj] at hs
      subst hs
      unfold accumulate
      simp only []
      nlinarith
    · refine ih ?_
      unfold accumulate
      simp only []
      have ha1 : o r.gaussId * w r.gaussId ≤ 1 :=
        mul_le_one₀ (ho r.gaussId).2 (hw r.gaussId).1 (hw r.gaussId).2
      nlinarith

/-- A record of a zero-opacity primitive contributes nothing to the
accumulator. -/
theorem accumulate_zero_opac {c : Nat → Vec3} {o w : Nat → ℚ} {st : PixState}
    {r : IsectRecord} (h : o r.gaussId = 0) :
    accumulate c o w st r = st := by
  unfold accumulate
  cases st with
  | mk color depth alphaAcc trans =>
    cases color
    simp [h]

/-- Compositing ignores records of zero-opacity primitives. -/
theorem renderPix_filter_zero (c : Nat → Vec3) (o w : Nat → ℚ)
    (recs : List IsectRecord) :
    renderPix c o w recs =
      renderPix c o w (recs.filter fun r => ! decide (o r.gaussId = 0)) := by
  unfold renderPix
  generalize initPix = st
  induction recs generalizing st with
  | nil => rfl
  | cons r l ih =>
    rw [List.foldl_cons, List.filter_cons]
    by_cases h : o r.gaussId = 0
    · rw [if_neg (by simp [h]), accumulate_zero_opac h]
      exact ih st
    · rw [if_pos (by simp [h]), List.foldl_cons]
      exact ih _

/-- The records of one primitive filtered by a predicate on the primitive
index: all of them or none of them. -/
theorem recsOf_filter_id (nTiles gid : Nat) (p? : Option Proj) (P : Nat → Bool) :
    (recsOf nTiles gid p?).filter (fun r => P r.gaussId) =
      if P gid then recsOf nTiles gid p? else [] := by
  cases p? with
  | none => cases h : P gid <;> simp [recsOf]
  | some p =>
    simp only [recsOf]
    rw [List.filter_map]
    cases h : P gid with
    | true =>
      rw [if_pos rfl]
      congr 1
      apply List.filter_eq_self.mpr
      intro t _
      simpa using h
    | false =>
      rw [if_neg (by simp)]
      rw [List.map_eq_nil_iff, List.filter_eq_nil_iff]
      intro t _
      simpa using h

/-- Raw records filtered to nonzero-opacity primitives agree for two
primitive lists that agree wherever opacity is nonzero. -/
theorem rawRecordsFrom_filter_congr (nTiles : Nat) (opac : List ℚ)
    (p₁ p₂ : List (Option Proj)) (g : Nat) (hlen : p₁.length = p₂.length)
    (hsame : ∀ i, i < p₁.length → opacAt opac (g + i) ≠ 0 →
      p₁.getD i none = p₂.getD i none) :
    (rawRecordsFrom nTiles g p₁).filter
      (fun r => ! decide (opacAt opac r.gaussId = 0)) =
    (rawRecordsFrom nTiles g p₂).filter
      (fun r => ! decide (opacAt opac r.gaussId = 0)) := by
  induction p₁ generalizing p₂ g with
  | nil =>
    cases p₂ with
    | nil => rfl
    | cons a t => simp at hlen
  | cons a₁ t₁ ih =>
    cases p₂ with
    | nil => simp at hlen
    | cons a₂ t₂ =>
      rw [rawRecordsFrom, rawRecordsFrom, List.filter_append, List.filter_append]
      congr 1
      · rw [recsOf_filter_id nTiles g a₁ (fun k => ! decide (opacAt opac k = 0)),
          recsOf_filter_id nTiles g a₂ (fun k => ! decide (opacAt opac k = 0))]
        by_cases h : opacAt opac g = 0
        · rw [if_neg (by simp [h]), if_neg (by simp [h])]
        · have heq : a₁ = a₂ := by
            have := hsame 0 (by simp) (by simpa using h)
            simpa using this
          rw [heq]
      · refine ih t₂ (g + 1) (by simpa using hlen) ?_
        intro i hi hne
        have := hsame (i + 1) (by simpa using Nat.succ_lt_succ hi)
          (by rw [show g + 1 + i = g + (i + 1) by omega] at hne; exact hne)
        simpa using this

/-- Master noninterference step: two raw record sets whose nonzero-opacity
parts coincide composite identically, under attribute tables agreeing at
nonzero opacities. -/
theorem renderPix_sorted_noninterference (opac : List ℚ) (c₁ c₂ : Nat → Vec3)
    (w₁ w₂ : Nat → ℚ) (m₁ m₂ : List IsectRecord)
    (hfil : m₁.filter (fun r => ! decide (opacAt opac r.gaussId = 0)) =
            m₂.filter (fun r => ! decide (opacAt opac r.gaussId = 0)))
    (htab : ∀ g, opacAt opac g ≠ 0 → c₁ g = c₂ g ∧ w₁ g = w₂ g) :
    renderPix c₁ (opacAt opac) w₁ (List.insertionSort recLE m₁) =
      renderPix c₂ (opacAt opac) w₂ (List.insertionSort recLE m₂) := by
  rw [renderPix_filter_zero c₁ (opacAt opac) w₁,
    renderPix_filter_zero c₂ (opacAt opac) w₂,
    filter_insertionSort, filter_insertionSort, hfil]
  apply renderPix_table_congr
  intro r hr
  have hmem := (List.perm_insertionSort recLE _).subset hr
  have hf := List.mem_filter.mp hmem
  have hne : opacAt opac r.gaussId ≠ 0 := by simpa using hf.2
  exact ⟨(htab _ hne).1, rfl, (htab _ hne).2⟩

/-- Outside the tile grid, the offset table designates the whole record
list. -/
theorem rasterize_to_pixels_out (nTiles : Nat) (v : View) (tid pix : Nat)
    (ht : nTiles ≤ tid) :
    rasterize_to_pixels nTiles v tid pix =
      renderPix (colorAt v.colors) (opacAt v.opacities) (projWeight v.projs pix)
        (isect_tiles nTiles v.projs) := by
  rw [rasterize_to_pixels]
  have h1 : (isect_offset_encode (isect_tiles nTiles v.projs) nTiles).getD tid 0 = 0 := by
    apply List.getD_eq_default
    rw [isect_offset_encode_length]
    omega
  have h2 : (isect_offset_encode (isect_tiles nTiles v.projs) nTiles).getD (tid + 1)
      (isect_tiles nTiles v.projs).length = (isect_tiles nTiles v.projs).length := by
    apply List.getD_eq_default
    rw [isect_offset_encode_length]
    omega
  rw [h1, h2, List.drop_zero, Nat.sub_zero, List.take_length]

/-- C8 at one pixel: changing only the attributes of zero-opacity primitives
leaves the composited pixel unchanged. -/
theorem noninterference_pixel (nTiles : Nat) (v₁ v₂ : View)
    (hop : v₁.opacities = v₂.opacities)
    (hlen : v₁.projs.length = v₂.projs.length)
    (hsame : ∀ g, opacAt v₁.opacities g ≠ 0 →
      v₁.projs.getD g none = v₂.projs.getD g none ∧
      colorAt v₁.colors g = colorAt v₂.colors g)
    (tid pix : Nat) :
    rasterize_to_pixels nTiles v₁ tid pix = rasterize_to_pixels nTiles v₂ tid pix := by
  have hraw : (rawRecords nTiles v₁.projs).filter
      (fun r => ! decide (opacAt v₁.opacities r.gaussId = 0)) =
      (rawRecords nTiles v₂.projs).filter
      (fun r => ! decide (opacAt v₁.opacities r.gaussId = 0)) := by
    apply rawRecordsFrom_filter_congr nTiles v₁.opacities v₁.projs v₂.projs 0 hlen
    intro i _ hne
    rw [Nat.zero_add] at hne
    exact (hsame i hne).1
  have htab : ∀ g, opacAt v₁.opacities g ≠ 0 →
      colorAt v₁.colors g = colorAt v₂.colors g ∧
      projWeight v₁.projs pix g = projWeight v₂.projs pix g := by
    intro g hne
    refine ⟨(hsame g hne).2, ?_⟩
    unfold projWeight
    rw [(hsame g hne).1]
  rw [hop] at hraw htab
  by_cases ht : tid < nTiles
  · rw [rasterize_to_pixels_char nTiles v₁ tid pix ht,
      rasterize_to_pixels_char nTiles v₂ tid pix ht,
      isect_tiles, isect_tiles, filter_insertionSort, filter_insertionSort, hop]
    refine renderPix_sorted_noninterference v₂.opacities _ _ _ _ _ _ ?_ htab
    rw [List.filter_comm, hraw, List.filter_comm]
  · rw [rasterize_to_pixels_out nTiles v₁ tid pix (by omega),
      rasterize_to_pixels_out nTiles v₂ tid pix (by omega),
      isect_tiles, isect_tiles, hop]
    exact renderPix_sorted_noninterference v₂.opacities _ _ _ _ _ _ hraw htab

theorem mul_add_lt {a ub s ubs : Nat} (ha : a < ub) (hs : s < ubs) :
    a * ubs + s < ub * ubs := by
  have h2 : (a + 1) * ubs ≤ ub * ubs := Nat.mul_le_mul_right ubs ha
  rw [Nat.succ_mul] at h2
  exact lt_of_lt_of_le (Nat.add_lt_add_left hs _) h2

theorem mul_add_div_eq {k s n : Nat} (hs : s < n) : (k * n + s) / n = k := by
  rw [Nat.mul_comm k n, Nat.mul_add_div (by omega : 0 < n),
    Nat.div_eq_of_lt hs, Nat.add_zero]

theorem mul_add_mod_eq {k s n : Nat} (hs : s < n) : (k * n + s) % n = s := by
  rw [Nat.mul_comm k n, Nat.mul_add_mod, Nat.mod_eq_of_lt hs]

theorem mul_add_inj {n k k' s s' : Nat} (hs : s < n) (hs' : s' < n)
    (h : k * n + s = k' * n + s') : k = k' ∧ s = s' := by
  have h1 : k = k' := by
    have h2 := congrArg (fun m => m / n) h
    simpa [mul_add_div_eq hs, mul_add_div_eq hs'] using h2
  subst h1
  exact ⟨rfl, Nat.add_left_cancel h⟩

/-- Every batched record is a shifted record of one of the views. -/
theorem batchRawFrom_mem {nTiles n b : Nat} {views : List View} {r : IsectRecord}
    (hr : r ∈ batchRawFrom nTiles n b views) :
    ∃ k r₀, b ≤ k ∧ k < b + views.length ∧
      r₀ ∈ rawRecords nTiles ((views.getD (k - b) View0).projs) ∧
      r = shiftRec nTiles n k r₀ := by
  induction views generalizing b with
  | nil => simp [batchRawFrom] at hr
  | cons v vs ih =>
    rw [batchRawFrom, List.mem_append] at hr
    rcases hr with h | h
    · obtain ⟨r₀, hr₀, rfl⟩ := List.mem_map.mp h
      exact ⟨b, r₀, le_refl b, by simp, by simpa using hr₀, rfl⟩
    · obtain ⟨k, r₀, hk1, hk2, hmem, rfl⟩ := ih h
      refine ⟨k, r₀, by omega, by simp only [List.length_cons]; omega, ?_, rfl⟩
      rw [show k - b = (k - (b + 1)) + 1 by omega, List.getD_cons_succ]
      exact hmem

/-- Filtering the batched raw records to one flattened tile selects exactly
the shifted records of the owning view's tile. -/
theorem batchRawFrom_filter (nTiles n : Nat) (views : List View) (b b₀ t : Nat)
    (hb₀ : b₀ ≤ b) (hb : b < b₀ + views.length) (ht : t < nTiles) :
    (batchRawFrom nTiles n b₀ views).filter
        (fun r => decide (r.tileId = b * nTiles + t)) =
      ((rawRecords nTiles ((views.getD (b - b₀) View0).projs)).filter
        (fun r => decide (r.tileId = t))).map (shiftRec nTiles n b) := by
  induction views generalizing b₀ with
  | nil =>
    exfalso
    simp only [List.length_nil] at hb
    omega
  | cons v vs ih =>
    rw [batchRawFrom, List.filter_append]
    by_cases hbe : b = b₀
    · subst hbe
      have htail : (batchRawFrom nTiles n (b + 1) vs).filter
          (fun r => decide (r.tileId = b * nTiles + t)) = [] := by
        rw [List.filter_eq_nil_iff]
        intro r hr
        obtain ⟨k, r₀, hk1, _, hmem, rfl⟩ := batchRawFrom_mem hr
        have hs := (rawRecords_mem hmem).2
        simp only [shiftRec, decide_eq_true_eq]
        intro hcon
        have := (mul_add_inj hs ht hcon).1
        omega
      rw [htail, List.append_nil, List.filter_map]
      rw [show b - b = 0 by omega, List.getD_cons_zero]
      congr 1
      apply List.filter_congr
      intro r _
      simp only [Function.comp_apply, shiftRec, decide_eq_decide]
      omega
    · have hhead : ((rawRecords nTiles v.projs).map (shiftRec nTiles n b₀)).filter
          (fun r => decide (r.tileId = b * nTiles + t)) = [] := by
        rw [List.filter_eq_nil_iff]
        intro r hr
        obtain ⟨r₀, hmem, rfl⟩ := List.mem_map.mp hr
        have hs := (rawRecords_mem hmem).2
        simp only [shiftRec, decide_eq_true_eq]
        intro hcon
        have := (mul_add_inj hs ht hcon).1
        omega
      rw [hhead, List.nil_append]
      rw [show b - b₀ = (b - (b₀ + 1)) + 1 by omega, List.getD_cons_succ]
      exact ih (b₀ + 1) (by omega) (by simp only [List.length_cons] at hb; omega)

/-- Batch shifting commutes with the binning sort. -/
theorem shiftRec_sort_comm (nT n b : Nat) (l : List IsectRecord) :
    List.insertionSort recLE (l.map (shiftRec nT n b)) =
      (List.insertionSort recLE l).map (shiftRec nT n b) := by
  apply insertionSort_map_mono
  intro a c _ _ hac
  rw [recLE_iff] at hac ⊢
  unfold shiftRec
  simp only []
  rcases hac with h | ⟨h1, h | ⟨h2, h3⟩⟩
  · exact Or.inl (Nat.add_lt_add_left h _)
  · exact Or.inr ⟨by rw [h1], Or.inl h⟩
  · exact Or.inr ⟨by rw [h1], Or.inr ⟨h2, Nat.add_le_add_left h3 _⟩⟩

theorem sortedBatch_sorted (nTiles n : Nat) (views : List View) :
    (sortedBatch nTiles n views).Sorted recLE := by
  rw [sortedBatch]
  exact List.sorted_insertionSort recLE _

/-- C5 at one pixel: one batched call composites each pixel of batch element
`b` exactly as the individual call on that view does. -/
theorem batched_pixel_eq (nTiles n : Nat) (views : List View) (b t pix : Nat)
    (hb : b < views.length) (ht : t < nTiles)
    (hn : (views.getD b View0).projs.length ≤ n) :
    rasterize_to_pixels_batched nTiles n views b t pix =
      rasterize_to_pixels nTiles (views.getD b View0) t pix := by
  have hgt : b * nTiles + t < views.length * nTiles := mul_add_lt hb ht
  have hbnd : ∀ r ∈ sortedBatch nTiles n views,
      r.tileId < views.length * nTiles := by
    intro r hr
    have hmem := (List.perm_insertionSort recLE _).subset hr
    obtain ⟨k, r₀, hk1, hk2, hm, rfl⟩ := batchRawFrom_mem hmem
    have hs := (rawRecords_mem hm).2
    exact mul_add_lt (by omega) hs
  rw [rasterize_to_pixels_batched,
    slice_eq_tileRange _ _ _ hgt hbnd,
    tileRange_eq_filter _ _ (sortedBatch_sorted nTiles n views),
    sortedBatch, filter_insertionSort, batchRawRecords,
    batchRawFrom_filter nTiles n views b 0 t (by omega) (by omega) ht,
    Nat.sub_zero, shiftRec_sort_comm, renderPix_shiftRec,
    rasterize_to_pixels_char _ _ _ _ ht, isect_tiles, filter_insertionSort]
  apply renderPix_table_congr
  intro r hr
  have hmem := (List.perm_insertionSort recLE _).subset hr
  have hg := (rawRecords_mem (List.mem_filter.mp hmem).1).1
  have hgn : r.gaussId < n := lt_of_lt_of_le hg hn
  unfold batchColor batchOpac batchWeight
  rw [mul_add_div_eq hgn, mul_add_mod_eq hgn]
  exact ⟨rfl, rfl, rfl⟩

/-- Every in-range pixel's owning tile is in the tile grid. -/
theorem tileOfPix_lt {width height x y : Nat} (hx : x < width) (hy : y < height) :
    tileOfPix width x y < numTiles width height := by
  unfold tileOfPix numTiles tilesX tilesY tileSize
  have h1 : x / 16 < (width + 16 - 1) / 16 := by omega
  have h2 : y / 16 < (height + 16 - 1) / 16 := by omega
  rw [Nat.mul_comm ((width + 16 - 1) / 16)]
  exact mul_add_lt h2 h1

theorem viewPixel_false (nTiles : Nat) (v : View) (tid pix : Nat) :
    viewPixel false nTiles v tid pix = rasterize_to_pixels nTiles v tid pix := rfl

theorem viewPixel_true (nTiles : Nat) (v : View) (tid pix : Nat) :
    viewPixel true nTiles v tid pix = rasterize_to_pixels_packed nTiles v tid pix := rfl

/-- Both intersection indexings produce the same pixel, for any flag. -/
theorem viewPixel_eq_dense (packed : Bool) (nTiles : Nat) (v : View)
    (tid pix : Nat) :
    viewPixel packed nTiles v tid pix = rasterize_to_pixels nTiles v tid pix := by
  cases packed
  · rfl
  · exact packed_eq_dense_pixel nTiles v tid pix

/-- The fused pixel agrees with the reference pixel on every in-grid tile,
for either indexing mode. -/
theorem viewPixel_eq_refPixel (packed : Bool) (nTiles : Nat) (v : View)
    (tid pix : Nat) (ht : tid < nTiles) :
    viewPixel packed nTiles v tid pix = refPixel nTiles v tid pix := by
  rw [viewPixel_eq_dense]
  exact dense_eq_refPixel nTiles v tid pix ht

/-- The fused view image equals the reference view image. -/
theorem renderViewImage_eq_ref (mode : RenderMode) (packed : Bool)
    (width height : Nat) (v : View) :
    renderViewImage mode packed width height v = refViewImage mode width height v := by
  unfold renderViewImage refViewImage
  apply List.map_congr_left
  intro y hy
  apply List.map_congr_left
  intro x hx
  rw [viewPixel_eq_refPixel _ _ _ _ _
    (tileOfPix_lt (List.mem_range.mp hx) (List.mem_range.mp hy))]

/-- The fused view alphas equal the reference view alphas. -/
theorem renderViewAlphas_eq_ref (packed : Bool) (width height : Nat) (v : View) :
    renderViewAlphas packed width height v = refViewAlphas width height v := by
  unfold renderViewAlphas refViewAlphas
  apply List.map_congr_left
  intro y hy
  apply List.map_congr_left
  intro x hx
  rw [viewPixel_eq_refPixel _ _ _ _ _
    (tileOfPix_lt (List.mem_range.mp hx) (List.mem_range.mp hy))]

/-- The fused view image is independent of the indexing flag. -/
theorem renderViewImage_packed_eq (mode : RenderMode) (width height : Nat)
    (v : View) :
    renderViewImage mode true width height v =
      renderViewImage mode false width height v := by
  unfold renderViewImage
  apply List.map_congr_left
  intro y _
  apply List.map_congr_left
  intro x _
  rw [viewPixel_eq_dense, viewPixel_false]

/-- The fused view alphas are independent of the indexing flag. -/
theorem renderViewAlphas_packed_eq (width height : Nat) (v : View) :
    renderViewAlphas true width height v = renderViewAlphas false width height v := by
  unfold renderViewAlphas
  apply List.map_congr_left
  intro y _
  apply List.map_congr_left
  intro x _
  rw [viewPixel_eq_dense, viewPixel_false]

theorem pixChannels_length (mode : RenderMode) (st : PixState) :
    (pixChannels mode st).length = channels mode := by
  cases mode <;> rfl

theorem splatsOf_length (inp : RasterInput) :
    (splatsOf inp).length = inp.means.length := by
  unfold splatsOf
  rw [List.length_map, List.length_range]

theorem splatsOf_getD (inp : RasterInput) (i : Nat) (hi : i < inp.means.length)
    (d : Splat) :
    (splatsOf inp).getD i d =
      { mean := vec3Of (inp.means.getD i (FVal.fin 0, FVal.fin 0, FVal.fin 0))
        quat := (fq (inp.quats.getD i (FVal.fin 0, FVal.fin 0, FVal.fin 0, FVal.fin 0)).1,
                 fq (inp.quats.getD i (FVal.fin 0, FVal.fin 0, FVal.fin 0, FVal.fin 0)).2.1,
                 fq (inp.quats.getD i (FVal.fin 0, FVal.fin 0, FVal.fin 0, FVal.fin 0)).2.2.1,
                 fq (inp.quats.getD i (FVal.fin 0, FVal.fin 0, FVal.fin 0, FVal.fin 0)).2.2.2)
        scale := vec3Of (inp.scales.getD i (FVal.fin 0, FVal.fin 0, FVal.fin 0))
        opacity := fq (inp.opacities.getD i (FVal.fin 0))
        color := (inp.colors.getD i []).map vec3Of } := by
  unfold splatsOf
  rw [List.getD_eq_getElem?_getD, List.getElem?_map, List.getElem?_range hi]
  rfl

theorem getElem?_eq_some_getD {α : Type} (l : List α) (i : Nat) (d : α)
    (hi : i < l.length) :
    l[i]? = some (l.getD i d) := by
  rw [List.getD_eq_getElem?_getD, List.getElem?_eq_getElem hi]
  rfl

theorem viewOf_opacities (projFn : Nat → Splat → Option Proj)
    (colorFn : Nat → Splat → Vec3) (inp : RasterInput) (cam : Nat) :
    (viewOf projFn colorFn (splatsOf inp) cam).opacities =
      (List.range inp.means.length).map
        (fun i => fq (inp.opacities.getD i (FVal.fin 0))) := by
  unfold viewOf splatsOf
  simp only []
  rw [List.map_map]
  rfl

theorem viewOf_opac_getD (projFn : Nat → Splat → Option Proj)
    (colorFn : Nat → Splat → Vec3) (inp : RasterInput) (cam g : Nat)
    (hg : g < inp.means.length) :
    opacAt (viewOf projFn colorFn (splatsOf inp) cam).opacities g =
      fq (inp.opacities.getD g (FVal.fin 0)) := by
  rw [opacAt, viewOf_opacities, List.getD_eq_getElem?_getD, List.getElem?_map,
    List.getElem?_range hg]
  rfl

theorem viewOf_opac_out (projFn : Nat → Splat → Option Proj)
    (colorFn : Nat → Splat → Vec3) (inp : RasterInput) (cam g : Nat)
    (hg : inp.means.length ≤ g) :
    opacAt (viewOf projFn colorFn (splatsOf inp) cam).opacities g = 0 := by
  rw [opacAt]
  apply List.getD_eq_default
  rw [viewOf, List.length_map, splatsOf_length]
  omega

theorem viewOf_projs_getD (projFn : Nat → Splat → Option Proj)
    (colorFn : Nat → Splat → Vec3) (inp : RasterInput) (cam g : Nat)
    (hg : g < inp.means.length) :
    (viewOf projFn colorFn (splatsOf inp) cam).projs.getD g none =
      projFn cam ((splatsOf inp).getD g Splat0) := by
  rw [viewOf]
  simp only []
  rw [List.getD_eq_getElem?_getD, List.getElem?_map,
    getElem?_eq_some_getD (splatsOf inp) g Splat0 (by rw [splatsOf_length]; omega)]
  rfl

theorem viewOf_colors_getD (projFn : Nat → Splat → Option Proj)
    (colorFn : Nat → Splat → Vec3) (inp : RasterInput) (cam g : Nat)
    (hg : g < inp.means.length) :
    colorAt (viewOf projFn colorFn (splatsOf inp) cam).colors g =
      colorFn cam ((splatsOf inp).getD g Splat0) := by
  rw [colorAt, viewOf]
  simp only []
  rw [List.getD_eq_getElem?_getD, List.getElem?_map,
    getElem?_eq_some_getD (splatsOf inp) g Splat0 (by rw [splatsOf_length]; omega)]
  rfl

/-- Two inputs agreeing in quaternion and opacity everywhere, and in all
attributes at index `i`, produce the same validated primitive there. -/
theorem splatsOf_agree (inp₁ inp₂ : RasterInput) (i : Nat)
    (hq : inp₁.quats = inp₂.quats) (ho : inp₁.opacities = inp₂.opacities)
    (hi₁ : i < inp₁.means.length) (hi₂ : i < inp₂.means.length)
    (hmean : inp₁.means.getD i (FVal.fin 0, FVal.fin 0, FVal.fin 0) =
      inp₂.means.getD i (FVal.fin 0, FVal.fin 0, FVal.fin 0))
    (hscale : inp₁.scales.getD i (FVal.fin 0, FVal.fin 0, FVal.fin 0) =
      inp₂.scales.getD i (FVal.fin 0, FVal.fin 0, FVal.fin 0))
    (hcol : inp₁.colors.getD i [] = inp₂.colors.getD i []) :
    (splatsOf inp₁).getD i Splat0 = (splatsOf inp₂).getD i Splat0 := by
  rw [splatsOf_getD inp₁ i hi₁, splatsOf_getD inp₂ i hi₂, hmean, hscale, hcol,
    hq, ho]

/-- The per-camera views of two inputs differing only in attributes of
zero-opacity primitives satisfy the pixel-level noninterference
hypotheses. -/
theorem viewOf_noninterference (projFn : Nat → Splat → Option Proj)
    (colorFn : Nat → Splat → Vec3) (inp₁ inp₂ : RasterInput) (cam : Nat)
    (hlen : inp₁.means.length = inp₂.means.length)
    (hq : inp₁.quats = inp₂.quats) (ho : inp₁.opacities = inp₂.opacities)
    (hsame : ∀ i, fq (inp₁.opacities.getD i (FVal.fin 0)) ≠ 0 →
      inp₁.means.getD i (FVal.fin 0, FVal.fin 0, FVal.fin 0) =
        inp₂.means.getD i (FVal.fin 0, FVal.fin 0, FVal.fin 0) ∧
      inp₁.scales.getD i (FVal.fin 0, FVal.fin 0, FVal.fin 0) =
        inp₂.scales.getD i (FVal.fin 0, FVal.fin 0, FVal.fin 0) ∧
      inp₁.colors.getD i [] = inp₂.colors.getD i []) :
    (viewOf projFn colorFn (splatsOf inp₁) cam).opacities =
      (viewOf projFn colorFn (splatsOf inp₂) cam).opacities ∧
    (viewOf projFn colorFn (splatsOf inp₁) cam).projs.length =
      (viewOf projFn colorFn (splatsOf inp₂) cam).projs.length ∧
    ∀ g, opacAt (viewOf projFn colorFn (splatsOf inp₁) cam).opacities g ≠ 0 →
      (viewOf projFn colorFn (splatsOf inp₁) cam).projs.getD g none =
        (viewOf projFn colorFn (splatsOf inp₂) cam).projs.getD g none ∧
      colorAt (viewOf projFn colorFn (splatsOf inp₁) cam).colors g =
        colorAt (viewOf projFn colorFn (splatsOf inp₂) cam).colors g := by
  refine ⟨by rw [viewOf_opacities, viewOf_opacities, hlen, ho], ?_, ?_⟩
  · rw [viewOf, viewOf]
    simp only []
    rw [List.length_map, List.length_map, splatsOf_length, splatsOf_length, hlen]
  · intro g hne
    by_cases hg : g < inp₁.means.length
    · rw [viewOf_opac_getD projFn colorFn inp₁ cam g hg] at hne
      have hsp := splatsOf_agree inp₁ inp₂ g hq ho hg (by omega)
        (hsame g hne).1 (hsame g hne).2.1 (hsame g hne).2.2
      rw [viewOf_projs_getD projFn colorFn inp₁ cam g hg,
        viewOf_projs_getD projFn colorFn inp₂ cam g (by omega),
        viewOf_colors_getD projFn colorFn inp₁ cam g hg,
        viewOf_colors_getD projFn colorFn inp₂ cam g (by omega), hsp]
      exact ⟨rfl, rfl⟩
    · exfalso
      exact hne (viewOf_opac_out projFn colorFn inp₁ cam g (by omega))

/-- C1: for every input configuration — any primitive/camera input, any
projection and color-evaluation stage (covering spherical-harmonic degrees
and per-view or shared colors), any render mode, packed true or false — the
fused public entry point `rasterization` and the pure reference
implementation `_rasterization` produce exactly equal renders and alphas (so
in particular equal within relative and absolute tolerance 1e-4). -/
theorem claim_rasterization_refines_reference
    (projFn : Nat → Splat → Option Proj) (colorFn : Nat → Splat → Vec3)
    (mode : RenderMode) (packed : Bool) (inp : RasterInput) :
    rasterization projFn colorFn mode packed inp =
      _rasterization projFn colorFn mode inp := by
  unfold rasterization _rasterization
  by_cases hv : validInput inp
  · rw [if_pos hv, if_pos hv]
    congr 1
    refine Prod.ext ?_ ?_
    · apply List.map_congr_left
      intro cam _
      exact renderViewImage_eq_ref mode packed inp.width inp.height _
    · apply List.map_congr_left
      intro cam _
      exact renderViewAlphas_eq_ref packed inp.width inp.height _
  · rw [if_neg hv, if_neg hv]

/-- C2: for every set of visible projected primitives, the
intersection-record list produced by `isect_tiles` is sorted by the composite
key (tile id, depth) ascending: tile ids are nondecreasing (so the records of
each tile form one contiguous range) and every pair of consecutive records
within one tile has nondecreasing depth. -/
theorem claim_isect_tiles_sorted (nTiles : Nat) (projs : List (Option Proj)) :
    (isect_tiles nTiles projs).Sorted recLE ∧
    (isect_tiles nTiles projs).Chain' (fun a b =>
      a.tileId ≤ b.tileId ∧ (a.tileId = b.tileId → a.depth ≤ b.depth)) := by
  refine ⟨isect_tiles_sorted_le nTiles projs, ?_⟩
  refine List.Chain'.imp ?_ (isect_tiles_sorted_le nTiles projs).chain'
  intro a b hab
  rw [recLE_iff] at hab
  constructor
  · rcases hab with h | ⟨h, _⟩
    · omega
    · omega
  · intro heq
    rcases hab with h | ⟨_, h | ⟨h, _⟩⟩
    · omega
    · exact le_of_lt h
    · exact le_of_eq h

/-- C3: for every sorted intersection-record list with in-grid tile ids, the
per-tile offset table produced by `isect_offset_encode` round-trips: each
tile's designated range is exactly the records of that tile (so it contains
only matching records), the boundaries start at 0, end at the full length and
are monotone (no gaps or overlaps), and a tile with zero intersections gets
an offset equal to the next tile's start (an empty range). -/
theorem claim_isect_offset_encode_roundtrip (recs : List IsectRecord)
    (nTiles : Nat) (hs : recs.Sorted recLE)
    (hb : ∀ r ∈ recs, r.tileId < nTiles) :
    (∀ t, t < nTiles →
      (isect_offset_encode recs nTiles).getD t 0 = tileStart recs t) ∧
    (∀ t, t < nTiles →
      tileRange recs t = recs.filter fun r => decide (r.tileId = t)) ∧
    tileStart recs 0 = 0 ∧
    tileStart recs nTiles = recs.length ∧
    (∀ t, tileStart recs t ≤ tileStart recs (t + 1)) ∧
    (∀ t, t < nTiles → (∀ r ∈ recs, r.tileId ≠ t) →
      tileStart recs t = tileStart recs (t + 1)) := by
  refine ⟨fun t ht => isect_offset_encode_get recs nTiles t 0 ht,
    fun t _ => tileRange_eq_filter recs t hs, ?_, tileStart_last recs nTiles hb,
    ?_, ?_⟩
  · unfold tileStart
    rw [List.countP_eq_zero]
    intro r _
    simp
  · intro t
    unfold tileStart
    apply List.countP_mono_left
    intro r _ h
    simp only [decide_eq_true_eq] at h ⊢
    omega
  · intro t _ hnone
    unfold tileStart
    apply List.countP_congr
    intro r hr
    have := hnone r hr
    simp only [decide_eq_true_eq]
    omega

/-- C4: for every primitive/camera input, `rasterization` with packed
intersection indexing produces the same renders and alphas as with dense
indexing, and the packed per-pixel rasterizer equals the dense one on every
input: the two modes differ only in how intersection records are indexed. -/
theorem claim_packed_dense_equivalent (projFn : Nat → Splat → Option Proj)
    (colorFn : Nat → Splat → Vec3) (mode : RenderMode) (inp : RasterInput) :
    rasterization projFn colorFn mode true inp =
      rasterization projFn colorFn mode false inp ∧
    ∀ nTiles v tid pix, rasterize_to_pixels_packed nTiles v tid pix =
      rasterize_to_pixels nTiles v tid pix := by
  refine ⟨?_, fun nTiles v tid pix => packed_eq_dense_pixel nTiles v tid pix⟩
  unfold rasterization
  by_cases hv : validInput inp
  · rw [if_pos hv, if_pos hv]
    congr 1
    refine Prod.ext ?_ ?_
    · apply List.map_congr_left
      intro cam _
      exact renderViewImage_packed_eq mode inp.width inp.height _
    · apply List.map_congr_left
      intro cam _
      exact renderViewAlphas_packed_eq inp.width inp.height _
  · rw [if_neg hv, if_neg hv]

/-- C5: batch invariance — rendering several independent (camera,
primitive-set) pairs as one batched call, with the batch dimension flattened
into the primitive/tile index space, produces for each pair exactly the
output of rendering that pair in its own individual call (image, alphas, and
every in-grid pixel). -/
theorem claim_batch_invariance (mode : RenderMode) (width height n : Nat)
    (views : List View) (b : Nat) (hb : b < views.length)
    (hn : ∀ v ∈ views, v.projs.length ≤ n) :
    renderBatchedImage mode width height n views b =
      renderViewImage mode false width height (views.getD b View0) ∧
    renderBatchedAlphas width height n views b =
      renderViewAlphas false width height (views.getD b View0) ∧
    ∀ t pix, t < numTiles width height →
      rasterize_to_pixels_batched (numTiles width height) n views b t pix =
        rasterize_to_pixels (numTiles width height) (views.getD b View0) t pix := by
  have hmem : views.getD b View0 ∈ views := by
    rw [List.getD_eq_getElem?_getD, List.getElem?_eq_getElem hb]
    exact List.getElem_mem hb
  have hnb := hn _ hmem
  refine ⟨?_, ?_, fun t pix ht => batched_pixel_eq _ n views b t pix hb ht hnb⟩
  · unfold renderBatchedImage renderViewImage
    apply List.map_congr_left
    intro y hy
    apply List.map_congr_left
    intro x hx
    rw [viewPixel_false, batched_pixel_eq _ n views b _ _ hb
      (tileOfPix_lt (List.mem_range.mp hx) (List.mem_range.mp hy)) hnb]
  · unfold renderBatchedAlphas renderViewAlphas
    apply List.map_congr_left
    intro y hy
    apply List.map_congr_left
    intro x hx
    rw [viewPixel_false, batched_pixel_eq _ n views b _ _ hb
      (tileOfPix_lt (List.mem_range.mp hx) (List.mem_range.mp hy)) hnb]

/-- C6: for every valid render call with C cameras and requested size
width × height, `rasterization` returns per-camera pixel buffers of shape
(C, height, width, channels), with 3 channel values per pixel in RGB mode, 1
in D mode and 4 in RGB+D mode, plus a (C, height, width) alpha buffer. -/
theorem claim_render_mode_shapes (projFn : Nat → Splat → Option Proj)
    (colorFn : Nat → Splat → Vec3) (mode : RenderMode) (packed : Bool)
    (inp : RasterInput) (hv : validInput inp = true) :
    ∃ renders alphas,
      rasterization projFn colorFn mode packed inp = .ok (renders, alphas) ∧
      renders.length = inp.viewmats.length ∧
      (∀ img ∈ renders, img.length = inp.height ∧
        ∀ row ∈ img, row.length = inp.width ∧
          ∀ px ∈ row, px.length = channels mode) ∧
      channels RenderMode.RGB = 3 ∧ channels RenderMode.D = 1 ∧
      channels RenderMode.RGBD = 4 ∧
      alphas.length = inp.viewmats.length ∧
      (∀ a ∈ alphas, a.length = inp.height ∧ ∀ row ∈ a, row.length = inp.width) := by
  refine ⟨_, _, by rw [rasterization, if_pos hv], ?_, ?_, rfl, rfl, rfl, ?_, ?_⟩
  · rw [List.length_map, List.length_range]
  · intro img himg
    obtain ⟨cam, _, rfl⟩ := List.mem_map.mp himg
    refine ⟨by rw [renderViewImage, List.length_map, List.length_range], ?_⟩
    intro row hrow
    rw [renderViewImage] at hrow
    obtain ⟨y, _, rfl⟩ := List.mem_map.mp hrow
    refine ⟨by rw [List.length_map, List.length_range], ?_⟩
    intro px hpx
    obtain ⟨x, _, rfl⟩ := List.mem_map.mp hpx
    exact pixChannels_length mode _
  · rw [List.length_map, List.length_range]
  · intro a ha
    obtain ⟨cam, _, rfl⟩ := List.mem_map.mp ha
    refine ⟨by rw [renderViewAlphas, List.length_map, List.length_range], ?_⟩
    intro row hrow
    rw [renderViewAlphas] at hrow
    obtain ⟨y, _, rfl⟩ := List.mem_map.mp hrow
    rw [List.length_map, List.length_range]

/-- C7: for every composited pixel, the transmittance starts at 1 and
monotonically decreases as sorted records are composited; when input colors,
opacities and densities lie in [0,1] the rendered color channels lie in
[0,1]; the alpha output lies in [0,1] and equals exactly one minus the
pixel's final transmittance. -/
theorem claim_transmittance_monotone (c : Nat → Vec3) (o w : Nat → ℚ)
    (recs : List IsectRecord)
    (hc : ∀ g, 0 ≤ (c g).x ∧ (c g).x ≤ 1 ∧ 0 ≤ (c g).y ∧ (c g).y ≤ 1 ∧
      0 ≤ (c g).z ∧ (c g).z ≤ 1)
    (ho : ∀ g, 0 ≤ o g ∧ o g ≤ 1) (hw : ∀ g, 0 ≤ w g ∧ w g ≤ 1) :
    (recs.scanl (accumulate c o w) initPix).head? = some initPix ∧
    initPix.trans = 1 ∧
    (recs.scanl (accumulate c o w) initPix).Chain'
      (fun s s' => s'.trans ≤ s.trans) ∧
    (0 ≤ (renderPix c o w recs).color.x ∧ (renderPix c o w recs).color.x ≤ 1 ∧
     0 ≤ (renderPix c o w recs).color.y ∧ (renderPix c o w recs).color.y ≤ 1 ∧
     0 ≤ (renderPix c o w recs).color.z ∧ (renderPix c o w recs).color.z ≤ 1) ∧
    (0 ≤ (renderPix c o w recs).alphaAcc ∧ (renderPix c o w recs).alphaAcc ≤ 1) ∧
    (renderPix c o w recs).alphaAcc = 1 - (renderPix c o w recs).trans := by
  have hinv : PixInv (renderPix c o w recs) :=
    foldl_accumulate_inv hc ho hw recs initPix_inv
  obtain ⟨ht0, ht1, hat, hx0, hx1, hy0, hy1, hz0, hz1⟩ := hinv
  refine ⟨scanl_head _ _ _, rfl,
    scanl_trans_chain ho hw recs (by norm_num [initPix]), ?_, ?_, ?_⟩
  · exact ⟨hx0, by linarith, hy0, by linarith, hz0, by linarith⟩
  · constructor <;> linarith
  · linarith

/-- C8: noninterference of invisible primitives — for every pair of valid
inputs that differ only in the color, center, or scale of primitives whose
opacity is 0, the full `rasterization` call and the per-pixel
`rasterize_to_pixels` produce identical output: zero-opacity primitives
contribute nothing. -/
theorem claim_zero_opacity_noninterference (projFn : Nat → Splat → Option Proj)
    (colorFn : Nat → Splat → Vec3) (mode : RenderMode) (packed : Bool)
    (inp₁ inp₂ : RasterInput)
    (hlen : inp₁.means.length = inp₂.means.length)
    (hq : inp₁.quats = inp₂.quats) (ho : inp₁.opacities = inp₂.opacities)
    (hvm : inp₁.viewmats = inp₂.viewmats)
    (hw : inp₁.width = inp₂.width) (hh : inp₁.height = inp₂.height)
    (hsame : ∀ i, fq (inp₁.opacities.getD i (FVal.fin 0)) ≠ 0 →
      inp₁.means.getD i (FVal.fin 0, FVal.fin 0, FVal.fin 0) =
        inp₂.means.getD i (FVal.fin 0, FVal.fin 0, FVal.fin 0) ∧
      inp₁.scales.getD i (FVal.fin 0, FVal.fin 0, FVal.fin 0) =
        inp₂.scales.getD i (FVal.fin 0, FVal.fin 0, FVal.fin 0) ∧
      inp₁.colors.getD i [] = inp₂.colors.getD i [])
    (hv₁ : validInput inp₁ = true) (hv₂ : validInput inp₂ = true) :
    rasterization projFn colorFn mode packed inp₁ =
      rasterization projFn colorFn mode packed inp₂ ∧
    ∀ cam tid pix,
      rasterize_to_pixels (numTiles inp₁.width inp₁.height)
        (viewOf projFn colorFn (splatsOf inp₁) cam) tid pix =
      rasterize_to_pixels (numTiles inp₂.width inp₂.height)
        (viewOf projFn colorFn (splatsOf inp₂) cam) tid pix := by
  have hpix : ∀ cam tid pix,
      rasterize_to_pixels (numTiles inp₁.width inp₁.height)
        (viewOf projFn colorFn (splatsOf inp₁) cam) tid pix =
      rasterize_to_pixels (numTiles inp₂.width inp₂.height)
        (viewOf projFn colorFn (splatsOf inp₂) cam) tid pix := by
    intro cam tid pix
    rw [← hw, ← hh]
    obtain ⟨h1, h2, h3⟩ :=
      viewOf_noninterference projFn colorFn inp₁ inp₂ cam hlen hq ho hsame
    exact noninterference_pixel _ _ _ h1 h2 h3 tid pix
  refine ⟨?_, hpix⟩
  unfold rasterization
  rw [if_pos hv₁, if_pos hv₂, hvm]
  congr 1
  refine Prod.ext ?_ ?_
  · apply List.map_congr_left
    intro cam _
    unfold renderViewImage
    rw [← hw, ← hh]
    apply List.map_congr_left
    intro y _
    apply List.map_congr_left
    intro x _
    rw [viewPixel_eq_dense, viewPixel_eq_dense]
    obtain ⟨h1, h2, h3⟩ :=
      viewOf_noninterference projFn colorFn inp₁ inp₂ cam hlen hq ho hsame
    exact congrArg (pixChannels mode) (noninterference_pixel _ _ _ h1 h2 h3 _ _)
  · apply List.map_congr_left
    intro cam _
    unfold renderViewAlphas
    rw [← hw, ← hh]
    apply List.map_congr_left
    intro y _
    apply List.map_congr_left
    intro x _
    rw [viewPixel_eq_dense, viewPixel_eq_dense]
    obtain ⟨h1, h2, h3⟩ :=
      viewOf_noninterference projFn colorFn inp₁ inp₂ cam hlen hq ho hsame
    exact congrArg PixState.alphaAcc (noninterference_pixel _ _ _ h1 h2 h3 _ _)

/-- C9: determinism of the sort — on identical primitive/camera inputs any
two sorted runs coincide (the sorted order is unique, hence bit-identical
across runs), with ties in the (tile id, depth) key broken by primitive
index, so forward and backward passes see the same order. -/
theorem claim_isect_sort_deterministic (nTiles : Nat)
    (projs : List (Option Proj)) (run₁ run₂ : List IsectRecord)
    (h₁ : run₁.Perm (rawRecords nTiles projs)) (hs₁ : run₁.Sorted recLE)
    (h₂ : run₂.Perm (rawRecords nTiles projs)) (hs₂ : run₂.Sorted recLE) :
    run₁ = run₂ ∧ run₁ = isect_tiles nTiles projs ∧
    (isect_tiles nTiles projs).Chain' (fun a b =>
      a.tileId = b.tileId → a.depth = b.depth → a.gaussId ≤ b.gaussId) := by
  have e₁ : run₁ = isect_tiles nTiles projs := sorted_perm_unique h₁ hs₁
  have e₂ : run₂ = isect_tiles nTiles projs := sorted_perm_unique h₂ hs₂
  refine ⟨by rw [e₁, e₂], e₁, ?_⟩
  refine List.Chain'.imp ?_ (isect_tiles_sorted_le nTiles projs).chain'
  intro a b hab
  rw [recLE_iff] at hab
  intro hte hde
  rcases hab with h | ⟨_, h | ⟨_, h⟩⟩
  · omega
  · exact absurd hde (ne_of_lt h)
  · exact h

/-- C10: error atomicity on invalid input — whenever validation fails
(non-finite attribute values, mismatched array lengths, non-positive scale,
or a zero-size image), `rasterization` returns the invalid-input error
immediately and no output is produced. -/
theorem claim_invalid_input_atomic (projFn : Nat → Splat → Option Proj)
    (colorFn : Nat → Splat → Vec3) (mode : RenderMode) (packed : Bool)
    (inp : RasterInput) (hv : validInput inp = false) :
    rasterization projFn colorFn mode packed inp =
      .error RenderError.invalidInput ∧
    ∀ out, rasterization projFn colorFn mode packed inp ≠ .ok out := by
  have h : rasterization projFn colorFn mode packed inp =
      .error RenderError.invalidInput := by
    rw [rasterization, if_neg (by simp [hv])]
  refine ⟨h, fun out hc => ?_⟩
  rw [h] at hc
  cases hc

/-- Witness for C3: the offset-table round-trip at a concrete sorted list. -/
theorem claim_isect_offset_encode_roundtrip_witness :
    recsW.Sorted recLE ∧ (∀ r ∈ recsW, r.tileId < 3) ∧
    ((∀ t, t < 3 → (isect_offset_encode recsW 3).getD t 0 = tileStart recsW t) ∧
     (∀ t, t < 3 → tileRange recsW t = recsW.filter fun r => decide (r.tileId = t)) ∧
     tileStart recsW 0 = 0 ∧
     tileStart recsW 3 = recsW.length ∧
     (∀ t, tileStart recsW t ≤ tileStart recsW (t + 1)) ∧
     (∀ t, t < 3 → (∀ r ∈ recsW, r.tileId ≠ t) →
       tileStart recsW t = tileStart recsW (t + 1))) :=
  ⟨by decide, by decide,
   claim_isect_offset_encode_roundtrip recsW 3 (by decide) (by decide)⟩

/-- Witness for C5: batch invariance at a concrete one-view batch. -/
theorem claim_batch_invariance_witness :
    0 < viewsW.length ∧ (∀ v ∈ viewsW, v.projs.length ≤ 1) ∧
    (renderBatchedImage RenderMode.RGB 1 1 1 viewsW 0 =
      renderViewImage RenderMode.RGB false 1 1 (viewsW.getD 0 View0) ∧
     renderBatchedAlphas 1 1 1 viewsW 0 =
      renderViewAlphas false 1 1 (viewsW.getD 0 View0) ∧
     ∀ t pix, t < numTiles 1 1 →
       rasterize_to_pixels_batched (numTiles 1 1) 1 viewsW 0 t pix =
         rasterize_to_pixels (numTiles 1 1) (viewsW.getD 0 View0) t pix) :=
  ⟨by decide, by decide,
   claim_batch_invariance RenderMode.RGB 1 1 1 viewsW 0 (by decide) (by decide)⟩

/-- Witness for C6: output shapes at a concrete valid input. -/
theorem claim_render_mode_shapes_witness :
    validInput inpW6 = true ∧
    ∃ renders alphas,
      rasterization (fun _ _ => none) (fun _ _ => ⟨0, 0, 0⟩) RenderMode.RGB
        false inpW6 = .ok (renders, alphas) ∧
      renders.length = inpW6.viewmats.length ∧
      (∀ img ∈ renders, img.length = inpW6.height ∧
        ∀ row ∈ img, row.length = inpW6.width ∧
          ∀ px ∈ row, px.length = channels RenderMode.RGB) ∧
      channels RenderMode.RGB = 3 ∧ channels RenderMode.D = 1 ∧
      channels RenderMode.RGBD = 4 ∧
      alphas.length = inpW6.viewmats.length ∧
      (∀ a ∈ alphas, a.length = inpW6.height ∧
        ∀ row ∈ a, row.length = inpW6.width) :=
  ⟨by decide,
   claim_render_mode_shapes (fun _ _ => none) (fun _ _ => ⟨0, 0, 0⟩)
     RenderMode.RGB false inpW6 (by decide)⟩

/-- Witness for C7: the compositing bounds at concrete tables. -/
theorem claim_transmittance_monotone_witness :
    (∀ g, 0 ≤ (cW g).x ∧ (cW g).x ≤ 1 ∧ 0 ≤ (cW g).y ∧ (cW g).y ≤ 1 ∧
      0 ≤ (cW g).z ∧ (cW g).z ≤ 1) ∧
    (∀ g, 0 ≤ oW g ∧ oW g ≤ 1) ∧
    (∀ g, 0 ≤ wW g ∧ wW g ≤ 1) ∧
    ((recsW7.scanl (accumulate cW oW wW) initPix).head? = some initPix ∧
     initPix.trans = 1 ∧
     (recsW7.scanl (accumulate cW oW wW) initPix).Chain'
       (fun s s' => s'.trans ≤ s.trans) ∧
     (0 ≤ (renderPix cW oW wW recsW7).color.x ∧
      (renderPix cW oW wW recsW7).color.x ≤ 1 ∧
      0 ≤ (renderPix cW oW wW recsW7).color.y ∧
      (renderPix cW oW wW recsW7).color.y ≤ 1 ∧
      0 ≤ (renderPix cW oW wW recsW7).color.z ∧
      (renderPix cW oW wW recsW7).color.z ≤ 1) ∧
     (0 ≤ (renderPix cW oW wW recsW7).alphaAcc ∧
      (renderPix cW oW wW recsW7).alphaAcc ≤ 1) ∧
     (renderPix cW oW wW recsW7).alphaAcc =
       1 - (renderPix cW oW wW recsW7).trans) :=
  ⟨fun _ => by norm_num [cW], fun _ => by norm_num [oW], fun _ => by norm_num [wW],
   claim_transmittance_monotone cW oW wW recsW7 (fun _ => by norm_num [cW])
     (fun _ => by norm_num [oW]) (fun _ => by norm_num [wW])⟩

/-- Witness for C8: noninterference at two concrete inputs differing only in
the center of a zero-opacity primitive. -/
theorem claim_zero_opacity_noninterference_witness :
    inpW1.means.length = inpW2.means.length ∧
    inpW1.quats = inpW2.quats ∧ inpW1.opacities = inpW2.opacities ∧
    inpW1.viewmats = inpW2.viewmats ∧
    inpW1.width = inpW2.width ∧ inpW1.height = inpW2.height ∧
    (∀ i, fq (inpW1.opacities.getD i (FVal.fin 0)) ≠ 0 →
      inpW1.means.getD i (FVal.fin 0, FVal.fin 0, FVal.fin 0) =
        inpW2.means.getD i (FVal.fin 0, FVal.fin 0, FVal.fin 0) ∧
      inpW1.scales.getD i (FVal.fin 0, FVal.fin 0, FVal.fin 0) =
        inpW2.scales.getD i (FVal.fin 0, FVal.fin 0, FVal.fin 0) ∧
      inpW1.colors.getD i [] = inpW2.colors.getD i []) ∧
    validInput inpW1 = true ∧ validInput inpW2 = true ∧
    (rasterization (fun _ _ => none) (fun _ _ => ⟨0, 0, 0⟩) RenderMode.RGB
        false inpW1 =
      rasterization (fun _ _ => none) (fun _ _ => ⟨0, 0, 0⟩) RenderMode.RGB
        false inpW2 ∧
     ∀ cam tid pix,
       rasterize_to_pixels (numTiles inpW1.width inpW1.height)
         (viewOf (fun _ _ => none) (fun _ _ => ⟨0, 0, 0⟩) (splatsOf inpW1) cam)
         tid pix =
       rasterize_to_pixels (numTiles inpW2.width inpW2.height)
         (viewOf (fun _ _ => none) (fun _ _ => ⟨0, 0, 0⟩) (splatsOf inpW2) cam)
         tid pix) :=
  ⟨rfl, rfl, rfl, rfl, rfl, rfl,
   fun i hi => absurd (show fq (inpW1.opacities.getD i (FVal.fin 0)) = 0 by
     cases i <;> rfl) hi,
   by decide, by decide,
   claim_zero_opacity_noninterference (fun _ _ => none) (fun _ _ => ⟨0, 0, 0⟩)
     RenderMode.RGB false inpW1 inpW2 rfl rfl rfl rfl rfl rfl
     (fun i hi => absurd (show fq (inpW1.opacities.getD i (FVal.fin 0)) = 0 by
       cases i <;> rfl) hi)
     (by decide) (by decide)⟩

/-- Witness for C9: sort determinism at a concrete projected-primitive
list. -/
theorem claim_isect_sort_deterministic_witness :
    ([⟨0, 1, 0⟩] : List IsectRecord).Perm (rawRecords 1 projsW) ∧
    ([⟨0, 1, 0⟩] : List IsectRecord).Sorted recLE ∧
    (([⟨0, 1, 0⟩] : List IsectRecord) = [⟨0, 1, 0⟩] ∧
     ([⟨0, 1, 0⟩] : List IsectRecord) = isect_tiles 1 projsW ∧
     (isect_tiles 1 projsW).Chain' fun a b =>
       a.tileId = b.tileId → a.depth = b.depth → a.gaussId ≤ b.gaussId) :=
  ⟨by decide, by decide,
   claim_isect_sort_deterministic 1 projsW [⟨0, 1, 0⟩] [⟨0, 1, 0⟩]
     (by decide) (by decide) (by decide) (by decide)⟩

/-- Witness for C10: error atomicity at a concrete zero-width input. -/
theorem claim_invalid_input_atomic_witness :
    validInput inpW10 = false ∧
    (rasterization (fun _ _ => none) (fun _ _ => ⟨0, 0, 0⟩) RenderMode.RGB
        false inpW10 = .error RenderError.invalidInput ∧
     ∀ out, rasterization (fun _ _ => none) (fun _ _ => ⟨0, 0, 0⟩)
        RenderMode.RGB false inpW10 ≠ .ok out) :=
  ⟨by decide,
   claim_invalid_input_atomic (fun _ _ => none) (fun _ _ => ⟨0, 0, 0⟩)
     RenderMode.RGB false inpW10 (by decide)⟩

end GSplat
